import Mathlib

/-! Verification development for `demazure.py`.

The program computes with the symmetric group `S_n` generated by adjacent
transpositions.  Arrangements such as `"bac"` (Python strings over
`ascii_lowercase`) are modelled as lists of symbol codes, `0 = 'a'`, ...,
`25 = 'z'`; generator words keep their source representation (Python ints,
modelled as `Int`; the words manufactured internally by the cache builder
are non-negative and are modelled as `List Nat`).  The sqlite store is
modelled as two association lists mirroring the `Lengths` and `Words`
tables together with their primary-key insert-or-fail behaviour. -/

/-- Python exception kinds raised by the source. -/
inductive PyErr where
  | valueError
  | indexError
  | typeError
  | notImplementedError
deriving DecidableEq, Repr

/-- Size of `string.ascii_lowercase`. -/
def alphaLen : Nat := 26

/-- Model of `ascii_lowercase[:n]`: the base arrangement.  A Python slice of a
26-character string returns at most 26 characters, hence the `min`. -/
def baseArrangement (n : Nat) : List Nat := List.range (min n alphaLen)

/-- Swap of the entries at positions `k` and `k+1` of a list, the effect of
`element[i-1],element[i] = element[i],element[i-1]` with `k = i-1`.
Out-of-range positions leave the list unchanged (the in-range guard lives in
`applyGenE`). -/
def swapAdj : Nat → List Nat → List Nat
  | 0, x :: y :: rest => y :: x :: rest
  | k+1, x :: rest => x :: swapAdj k rest
  | _, l => l

/-- One step of the evaluator loop of `standard_product` (lines 103-109):
range check (`ValueError`), generator `0` is a no-op, otherwise Python reads
`element[i]`, which raises `IndexError` when `i` is not an index of the
current arrangement, and swaps positions `i-1`, `i`. -/
def applyGenE (n : Nat) (el : List Nat) (i : Int) : Except PyErr (List Nat) :=
  if i < 0 ∨ (n : Int) ≤ i then .error .valueError
  else if i = 0 then .ok el
  else if i.toNat < el.length then .ok (swapAdj (i.toNat - 1) el) else .error .indexError

/-- Model of `standard_product(word, n)`: the word is reversed and applied
generator by generator to the base arrangement. -/
def standard_product (word : List Int) (n : Nat) : Except PyErr (List Nat) :=
  word.reverse.foldlM (fun el i => applyGenE n el i) (baseArrangement n)

/-- Total version of one generator application for in-range generators. -/
def applyGen (g : Nat) (el : List Nat) : List Nat :=
  if g = 0 then el else swapAdj (g - 1) el

/-- Total evaluator for words of in-range non-negative generators; agrees with
`standard_product` on its non-raising domain (theorem `standard_product_ok`). -/
def wordProd (w : List Nat) (n : Nat) : List Nat :=
  w.foldr (fun g e => applyGen g e) (baseArrangement n)

/-- Model of `identify_n`: one more than the largest entry (1 on the empty word). -/
def identify_n (word : List Int) : Int :=
  match word with
  | [] => 1
  | g :: gs => gs.foldl max g + 1

/-- Model of `calculate_expression_length`: the number of non-zero generators. -/
def calculate_expression_length (word : List Int) : Nat :=
  (word.filter (fun g => decide (g ≠ 0))).length

/-- Number of bits of `i` above a 53-bit significand: 0 for `i < 2 ^ 53`,
otherwise the exponent of the rounding step of the IEEE-754 binary64
conversion of `i` (the bound 64 covers every `i < 2 ^ 117`, far beyond the
`int64` masks arising in `subword`). -/
def sigExp (i : Nat) : Nat :=
  (List.range 64).foldl (fun a j => if 2 ^ (53 + j) ≤ i then j + 1 else a) 0

/-- Conversion of a mask to IEEE-754 binary64, as a natural number: a number
of at most 53 significant bits is exact, a larger one rounds to the nearest
multiple of `2 ^ sigExp i`, ties to the even multiple.  In
`subword = (i*subword//places)%2` the integer array `i*subword` is divided by
the `uint64` array `places`; numpy promotes that mixed signed/`uint64`
division to `float64`, so the mask `i` passes through this conversion before
its bits are read off.  The divisions by the powers of two, the floor and the
`%2` that follow are exact on `float64` values of this size, so the bits the
source extracts are exactly the bits of `float64Round i`. -/
def float64Round (i : Nat) : Nat :=
  if sigExp i = 0 then i
  else
    (if 2 ^ (sigExp i - 1) < i % 2 ^ sigExp i ∨
        (i % 2 ^ sigExp i = 2 ^ (sigExp i - 1) ∧ i / 2 ^ sigExp i % 2 = 1)
     then i / 2 ^ sigExp i + 1 else i / 2 ^ sigExp i) * 2 ^ sigExp i

/-- The binary64 conversion of a signed entry: in `subword*word` the `int64`
word entries promote to `float64` alongside the `0.0`/`1.0` mask bits. -/
def float64RoundZ (x : Int) : Int :=
  if x < 0 then -(float64Round (-x).toNat : Int) else (float64Round x.toNat : Int)

/-- `astype(numpy.int32)` on an integral value: reduction to a 32-bit
two's-complement integer (the C conversion behind `astype` is exact on
`[-2^31, 2^31)`, the only range the theorems exercise). -/
def int32Cast (x : Int) : Int := (x + 2 ^ 31) % 2 ^ 32 - 2 ^ 31

/-- Positionwise masking by the binary digits of an already-rounded mask `m`:
position `j` holds the entry of `(subword*word).astype(numpy.int32)`, that is
`int32Cast` of bit `j` of `m` times the `float64` image of the generator (the
recursion shifts the mask right by one bit per position). -/
def maskBits : List Int → Nat → List Int
  | [], _ => []
  | g :: w, m => int32Cast (((m % 2 : Nat) : Int) * float64RoundZ g) :: maskBits w (m / 2)

/-- The numpy pipeline of `subword` on `(word, i)`: the mask is rounded to
`float64` by the mixed-kind division, its bits select the positions, and the
selected entries pass through `float64` and `astype(numpy.int32)`. -/
def maskWord (w : List Int) (i : Nat) : List Int := maskBits w (float64Round i)

/-- Model of `subword((word, i))`: raises for word length at least 64,
otherwise masks the word by the binary digits of the `float64` image of `i`. -/
def subword (pos : List Int × Nat) : Except PyErr (List Int) :=
  if 64 ≤ pos.1.length then .error .notImplementedError
  else .ok (maskWord pos.1 pos.2)

/-- Population count of a natural number. -/
def popcount : Nat → Nat
  | 0 => 0
  | n+1 => (n+1) % 2 + popcount ((n+1) / 2)
decreasing_by exact Nat.div_lt_self (Nat.succ_pos n) (by omega)

/-- Number of entries of the list strictly smaller than `x`. -/
def countLt (x : Nat) : List Nat → Nat
  | [] => 0
  | y :: ys => (if y < x then 1 else 0) + countLt x ys

/-- Inversion number of an arrangement: the number of pairs of positions that
are out of order.  For an arrangement of `S_n` this is its Coxeter length. -/
def invCount : List Nat → Nat
  | [] => 0
  | x :: xs => countLt x xs + invCount xs

/-- Relabelling that exchanges the symbol values `v` and `v+1`. -/
def swapVal (v x : Nat) : Nat :=
  if x = v then v + 1 else if x = v + 1 then v else x

/-- Exchange of the two symbol values `v` and `v+1` throughout an arrangement;
this is the effect on the evaluated element of appending generator `v+1` to a
word (theorem `wordProd_append_gen`). -/
def swapValues (v : Nat) (l : List Nat) : List Nat := l.map (swapVal v)

/-- Decides whether `a` occurs strictly before `b` (first hit wins). -/
def comesBefore (a b : Nat) : List Nat → Bool
  | [] => false
  | x :: xs => if x = a then true else if x = b then false else comesBefore a b xs

/-- Model of the sqlite database `S_n.sqlite`: the `Lengths` table has rows
`(element, n_value, length)` with primary key `element`, the `Words` table has
rows `(element, n_value, word)` with primary key `(word, n_value)`.  Row order
is insertion order (sqlite rowid order, the order `SELECT` returns). -/
structure Store where
  lengths : List (List Nat × Nat × Nat)
  words : List (List Nat × Nat × List Nat)
deriving DecidableEq, Repr

/-- Fresh database. -/
def emptyStore : Store := ⟨[], []⟩

/-- Model of `INSERT INTO Lengths` inside `try/except sqlite3.IntegrityError:
pass`: a primary-key conflict on `element` leaves the table unchanged. -/
def insertLength (s : Store) (e : List Nat) (n L : Nat) : Store :=
  if s.lengths.any (fun r => decide (r.1 = e)) then s
  else { s with lengths := s.lengths ++ [(e, n, L)] }

/-- Model of `INSERT INTO Words` with its `(word, n_value)` primary key under
the same insert-or-ignore discipline. -/
def insertWord (s : Store) (e : List Nat) (n : Nat) (w : List Nat) : Store :=
  if s.words.any (fun r => decide (r.2.2 = w ∧ r.2.1 = n)) then s
  else { s with words := s.words ++ [(e, n, w)] }

/-- Model of `SELECT element FROM Lengths WHERE n_value = ? AND length = ?`. -/
def elemsAt (s : Store) (n L : Nat) : List (List Nat) :=
  (s.lengths.filter (fun r => decide (r.2.1 = n ∧ r.2.2 = L))).map (fun r => r.1)

/-- Model of `SELECT word FROM Words WHERE n_value = ? AND element = ?`. -/
def wordsOf (s : Store) (n : Nat) (e : List Nat) : List (List Nat) :=
  (s.words.filter (fun r => decide (r.2.1 = n ∧ r.1 = e))).map (fun r => r.2.2)

/-- Model of `SELECT length FROM Lengths WHERE n_value = ? AND element = ?`;
`none` models an empty result set. -/
def lookupLen (s : Store) (n : Nat) (e : List Nat) : Option Nat :=
  ((s.lengths.filter (fun r => decide (r.2.1 = n ∧ r.1 = e))).map (fun r => r.2.2)).head?

/-- Model of the length query of `process_element` (lines 614-618), which
filters by `element` only, with no `n_value` condition. -/
def lengthLookupByElement (s : Store) (e : List Nat) : Option Nat :=
  ((s.lengths.filter (fun r => decide (r.1 = e))).map (fun r => r.2.2)).head?

/-- Model of `sum(range(n))`, the `dim` bound of the cache build loop. -/
def dimOf (n : Nat) : Nat := (List.range n).sum

/-- Innermost loop of `create_element_cache` (lines 344-379): for each
generator `i` in `range(1, n)` extend the stored word, evaluate it, skip the
result when it lies in the previous layer `check`, otherwise insert the
length row (ignored on conflict) and then the word row (ignored on conflict).
The source evaluates via `standard_product`, which never raises here because
stored words only hold generators in `[1, n)` with `n ≤ 26` (theorem
`standard_product_ok` ties `wordProd` to `standard_product` on that domain). -/
def buildInsert (n L : Nat) (check : List (List Nat)) (w : List Nat) (s : Store) (i : Nat) :
    Store :=
  let newWord := w ++ [i]
  let ne := wordProd newWord n
  if ne ∈ check then s
  else insertWord (insertLength s ne n (L + 1)) ne n newWord

def processWord (n L : Nat) (check : List (List Nat)) (w : List Nat) (s : Store) : Store :=
  (List.range' 1 (n - 1)).foldl (buildInsert n L check w) s

/-- Loop over the stored words of one element of the current layer; the word
list is fetched from the live store when the element is reached (lines
331-338). -/
def processElem (n L : Nat) (check : List (List Nat)) (old : List Nat) (s : Store) : Store :=
  (wordsOf s n old).foldl (fun s w => processWord n L check w s) s

/-- One pass of the filling loop (lines 313-379): `check` is the layer below
(`length - 1 = -1` matches no rows when `L = 0`), `build` the current layer,
both snapshotted before the element loop runs. -/
def processLayer (n L : Nat) (s : Store) : Store :=
  let check := if L = 0 then [] else elemsAt s n (L - 1)
  let build := elemsAt s n L
  build.foldl (fun s old => processElem n L check old s) s

/-- The `for length in range(dim)` loop of `create_element_cache`. -/
def buildLayers (n : Nat) (s : Store) : Store :=
  (List.range (dimOf n)).foldl (fun s L => processLayer n L s) s

/-- Model of `create_element_cache(n)`: domain errors first, then the seeding
transaction inserting the identity row into both tables.  The transaction is
atomic (the `with sqlite3.connect` context rolls back on exception), so a
primary-key conflict in either insert leaves the store unchanged and returns
`False`; otherwise the layer loop fills the tables and the call returns
`True`. -/
def create_element_cache (n : Nat) (s : Store) : Except PyErr (Bool × Store) :=
  if n < 1 then .error .valueError
  else if 26 < n then .error .notImplementedError
  else if s.lengths.any (fun r => decide (r.1 = baseArrangement n))
      || s.words.any (fun r => decide (r.2.2 = ([] : List Nat) ∧ r.2.1 = n)) then
    .ok (false, s)
  else
    let s1 := insertWord (insertLength s (baseArrangement n) n 0) (baseArrangement n) n []
    .ok (true, buildLayers n s1)

/-- The store produced by `create_element_cache(n)` on a fresh database, used
to instantiate theorems at concrete sizes. -/
def freshStore (n : Nat) : Store :=
  match create_element_cache n emptyStore with
  | .ok (_, s) => s
  | .error _ => emptyStore

/-- Result of `demazure_product`: a word, or (for empty input) the Python list
`[[], ascii_lowercase[:n]]` pairing the empty word with the base arrangement. -/
inductive DemRes where
  | word (w : List Int)
  | pair (w : List Int) (e : List Nat)
deriving DecidableEq, Repr

/-- Model of the `check_existance` test of `demazure_product` (lines 420-428):
is there a length-0 row for this `n`? -/
def cacheHasLenZero (s : Store) (n : Nat) : Bool :=
  !(s.lengths.filter (fun r => decide (r.2.1 = n ∧ r.2.2 = 0))).isEmpty

/-- Model of `word[start:]` after the leading-zero scan of `demazure_product`:
the scan stops at the first non-zero generator or at the last position. -/
def skipZeros : List Int → List Int
  | [] => []
  | [g] => [g]
  | g :: rest => if g = 0 then skipZeros rest else g :: rest

/-- One iteration of the product loop of `demazure_product` (lines 437-457):
evaluate the running product, fetch its length (`fetchall()[0][0]` raises
`IndexError` on an empty result), evaluate the candidate with the next
generator appended, fetch its length, and append exactly when the candidate's
length is strictly greater. -/
def demStep (s : Store) (n : Nat) (pw : List Int) (i : Int) : Except PyErr (List Int) := do
  let oldE ← standard_product pw n
  match lookupLen s n oldE with
  | none => .error .indexError
  | some oldL => do
    let newE ← standard_product (pw ++ [i]) n
    match lookupLen s n newE with
    | none => .error .indexError
    | some newL => .ok (if oldL < newL then pw ++ [i] else pw)

/-- Model of `demazure_product(word, n)` with explicit `n`: build the cache on
demand (the returned flag is ignored, exceptions propagate), return the
`[[], base]` pair on empty input, otherwise skip leading zeros, seed the
running product with the first surviving generator and fold the remaining
generators through `demStep`. -/
def ensureCache (n : Nat) (s : Store) : Except PyErr Store :=
  if cacheHasLenZero s n then pure s
  else do
    let r ← create_element_cache n s
    pure r.2

def demazure_product (word : List Int) (n : Nat) (s : Store) : Except PyErr (Store × DemRes) := do
  let s ← ensureCache n s
  match word with
  | [] => .ok (s, .pair [] (baseArrangement n))
  | _ :: _ =>
    match skipZeros word with
    | [] => .ok (s, .word [])
    | g :: rest => do
      let pw ← rest.foldlM (fun pw i => demStep s n pw i) [g]
      .ok (s, .word pw)

/-- Model of `subword_element_association(word, n)`: enumerate all masks,
compute every subword, fold `demazure_product` over the rows (the source
omits `n` there, so each call runs at `identify_n(subword)`, non-negative for
the non-negative generator words reachable here, making `toNat` exact), then
evaluate each resulting word at the ambient `n`.  Applying the evaluator to
the `[[], base]` pair returned for an empty subword raises `TypeError`
(`'str' < 'int'` comparison).  The table is the list of
(subword, element) rows in mask order. -/
def subword_element_association (word : List Int) (n : Nat) (s : Store) :
    Except PyErr (Store × List (List Int × List Nat)) := do
  let sws ← (List.range (2 ^ word.length)).mapM (fun i => subword (word, i))
  let res ← sws.foldlM (fun (acc : Store × List DemRes) sw => do
      let r ← demazure_product sw (identify_n sw).toNat acc.1
      .ok (r.1, acc.2 ++ [r.2])) (s, ([] : List DemRes))
  let elems ← res.2.mapM (fun r =>
      match r with
      | .word w => standard_product w n
      | .pair _ _ => (.error .typeError : Except PyErr (List Nat)))
  .ok (res.1, sws.zip elems)

/-- Modelled from the spec: the Demazure (0-Hecke) step of the Notes of
`demazure_product` — append the generator when the Coxeter length strictly
increases, keep the element otherwise; generator 0 acts as the identity. -/
def heckeStep (e : List Nat) (g : Nat) : List Nat :=
  if g = 0 then e
  else
    let e2 := swapValues (g - 1) e
    if invCount e < invCount e2 then e2 else e

/-- Modelled from the spec: the d-fold Demazure (0-Hecke) product of a word,
folded left to right from the identity. -/
def heckeFold (word : List Int) (n : Nat) : List Nat :=
  word.foldl (fun e g => heckeStep e g.toNat) (baseArrangement n)

/-! Basic structural lemmas. -/

theorem swapAdj_nil (k : Nat) : swapAdj k [] = [] := by
  cases k <;> rfl

theorem swapAdj_length (k : Nat) (l : List Nat) : (swapAdj k l).length = l.length := by
  induction k generalizing l with
  | zero => match l with
    | [] => rfl
    | [x] => rfl
    | x :: y :: rest => rfl
  | succ k ih => match l with
    | [] => rfl
    | x :: rest => simpa [swapAdj] using ih rest

theorem swapAdj_perm (k : Nat) (l : List Nat) : (swapAdj k l).Perm l := by
  induction k generalizing l with
  | zero => match l with
    | [] => exact .refl _
    | [x] => exact .refl _
    | x :: y :: rest => exact List.Perm.swap x y rest
  | succ k ih => match l with
    | [] => exact .refl _
    | x :: rest => exact (List.Perm.cons x (ih rest))

theorem swapAdj_of_length_le (k : Nat) (l : List Nat) (h : l.length ≤ k + 1) :
    swapAdj k l = l := by
  induction k generalizing l with
  | zero => match l with
    | [] => rfl
    | [x] => rfl
    | x :: y :: rest => simp at h
  | succ k ih => match l with
    | [] => rfl
    | x :: rest =>
      simp only [List.length_cons] at h
      simpa [swapAdj] using ih rest (by omega)

theorem swapAdj_map (k : Nat) (f : Nat → Nat) (l : List Nat) :
    swapAdj k (l.map f) = (swapAdj k l).map f := by
  induction k generalizing l with
  | zero => match l with
    | [] => rfl
    | [x] => rfl
    | x :: y :: rest => rfl
  | succ k ih => match l with
    | [] => rfl
    | x :: rest => simpa [swapAdj] using ih rest

theorem swapAdj_append (k : Nat) (A : List Nat) (x y : Nat) (B : List Nat)
    (hA : A.length = k) : swapAdj k (A ++ x :: y :: B) = A ++ y :: x :: B := by
  induction A generalizing k with
  | nil => subst hA; rfl
  | cons a A ih =>
    subst hA
    simpa [swapAdj] using ih (k := A.length) rfl

theorem applyGen_length (g : Nat) (l : List Nat) : (applyGen g l).length = l.length := by
  unfold applyGen
  split
  · rfl
  · exact swapAdj_length _ _

theorem applyGen_perm (g : Nat) (l : List Nat) : (applyGen g l).Perm l := by
  unfold applyGen
  split
  · exact .refl _
  · exact swapAdj_perm _ _

theorem applyGen_map (g : Nat) (f : Nat → Nat) (l : List Nat) :
    applyGen g (l.map f) = (applyGen g l).map f := by
  unfold applyGen
  split
  · rfl
  · exact swapAdj_map _ _ _

theorem wordProd_length (w : List Nat) (n : Nat) :
    (wordProd w n).length = min n alphaLen := by
  induction w with
  | nil => simp [wordProd, baseArrangement]
  | cons g w ih => simpa [wordProd, applyGen_length] using ih

theorem wordProd_nil (n : Nat) : wordProd [] n = baseArrangement n := rfl

theorem wordProd_cons (g : Nat) (w : List Nat) (n : Nat) :
    wordProd (g :: w) n = applyGen g (wordProd w n) := rfl

theorem wordProd_perm_base (w : List Nat) (n : Nat) :
    (wordProd w n).Perm (baseArrangement n) := by
  induction w with
  | nil => exact .refl _
  | cons g w ih => exact (applyGen_perm g (wordProd w n)).trans ih

/-! Lemmas about the base arrangement and value swaps. -/

theorem baseArrangement_eq {n : Nat} (h : n ≤ 26) :
    baseArrangement n = List.range n := by
  unfold baseArrangement alphaLen
  congr 1
  omega

theorem swapVal_swapVal (v x : Nat) : swapVal v (swapVal v x) = x := by
  unfold swapVal
  by_cases h1 : x = v
  · simp [h1]
  · by_cases h2 : x = v + 1 <;> simp [h1, h2]

theorem swapValues_swapValues (v : Nat) (l : List Nat) :
    swapValues v (swapValues v l) = l := by
  unfold swapValues
  rw [List.map_map]
  have : (swapVal v ∘ swapVal v) = id := by
    funext x
    exact swapVal_swapVal v x
  rw [this, List.map_id]

theorem range_decomp {v m : Nat} (h : v + 2 ≤ m) :
    List.range m = List.range' 0 v ++ v :: (v+1) :: List.range' (v+2) (m - v - 2) := by
  rw [List.range_eq_range']
  have h1 : List.range' 0 v ++ List.range' v (m - v) = List.range' 0 m := by
    have := List.range'_append 0 v (m - v) 1
    simp at this
    rw [this]
    congr 1
    omega
  rw [← h1]
  congr 1
  have h2 : m - v = (m - v - 2) + 1 + 1 := by omega
  rw [h2, List.range'_succ, List.range'_succ]
  have h3 : m - v - 2 + 1 + 1 - 2 = m - v - 2 := by omega
  rw [h3]

theorem map_swapVal_range {v m : Nat} (h : v + 1 < m) :
    (List.range m).map (swapVal v) = swapAdj v (List.range m) := by
  have hd := range_decomp (v := v) (m := m) (by omega)
  rw [hd]
  have hA : (List.range' 0 v).length = v := List.length_range' _ _ _
  rw [swapAdj_append v _ v (v+1) _ hA]
  rw [List.map_append]
  congr 1
  · apply List.map_congr_left ?_ |>.trans (List.map_id _)
    intro a ha
    rw [List.mem_range'_1] at ha
    unfold swapVal
    have : a ≠ v := by omega
    have : a ≠ v + 1 := by omega
    simp_all
  · simp only [List.map_cons]
    have hv : swapVal v v = v + 1 := by simp [swapVal]
    have hv1 : swapVal v (v+1) = v := by simp [swapVal]
    rw [hv, hv1]
    congr 1
    congr 1
    apply List.map_congr_left ?_ |>.trans (List.map_id _)
    intro a ha
    rw [List.mem_range'_1] at ha
    unfold swapVal
    have : a ≠ v := by omega
    have : a ≠ v + 1 := by omega
    simp_all

theorem applyGen_base {g n : Nat} (hg1 : 1 ≤ g) (hg : g < min n alphaLen) :
    applyGen g (baseArrangement n) = swapValues (g-1) (baseArrangement n) := by
  unfold applyGen baseArrangement swapValues
  have hgne : ¬ g = 0 := by omega
  simp only [hgne, if_false]
  have h : (g - 1) + 1 < min n alphaLen := by omega
  rw [map_swapVal_range h]

theorem wordProd_append_gen {g : Nat} (w : List Nat) (n : Nat)
    (hg1 : 1 ≤ g) (hg : g < min n alphaLen) :
    wordProd (w ++ [g]) n = swapValues (g-1) (wordProd w n) := by
  induction w with
  | nil => simpa [wordProd] using applyGen_base hg1 hg
  | cons a w ih =>
    have h1 : (a :: w) ++ [g] = a :: (w ++ [g]) := rfl
    rw [h1, wordProd_cons, ih, wordProd_cons]
    unfold swapValues
    exact applyGen_map a _ _

/-! Counting lemmas for the inversion number. -/

theorem countLt_eq_countP (x : Nat) (l : List Nat) :
    countLt x l = l.countP (fun y => decide (y < x)) := by
  induction l with
  | nil => rfl
  | cons y ys ih =>
    simp only [countLt, List.countP_cons, ih]
    by_cases h : y < x <;> simp [h] <;> omega

theorem countLt_perm (x : Nat) {l l' : List Nat} (h : l.Perm l') :
    countLt x l = countLt x l' := by
  rw [countLt_eq_countP, countLt_eq_countP]
  exact h.countP_eq _

theorem countLt_le_length (x : Nat) (l : List Nat) : countLt x l ≤ l.length := by
  induction l with
  | nil => exact Nat.le_refl 0
  | cons y ys ih =>
    simp only [countLt, List.length_cons]
    by_cases h : y < x <;> simp [h] <;> omega

theorem countLt_eq_length_iff (x : Nat) (l : List Nat) :
    countLt x l = l.length ↔ ∀ y ∈ l, y < x := by
  induction l with
  | nil => simp [countLt]
  | cons y ys ih =>
    simp only [countLt, List.length_cons, List.mem_cons]
    constructor
    · intro h
      have hc := countLt_le_length x ys
      by_cases hy : y < x
      · simp only [hy, if_pos] at h
        have : countLt x ys = ys.length := by omega
        intro z hz
        rcases hz with rfl | hz
        · exact hy
        · exact (ih.mp this) z hz
      · simp [hy] at h; omega
    · intro h
      have hy : y < x := h y (Or.inl rfl)
      have : countLt x ys = ys.length := ih.mpr (fun z hz => h z (Or.inr hz))
      simp only [hy, if_pos, this]
      omega

theorem countLt_eq_zero_iff (x : Nat) (l : List Nat) :
    countLt x l = 0 ↔ ∀ y ∈ l, ¬ y < x := by
  induction l with
  | nil => simp [countLt]
  | cons y ys ih =>
    simp only [countLt, List.mem_cons]
    by_cases hy : y < x
    · simp [hy]
    · simp only [hy, if_neg, Nat.zero_add, ih, not_false_iff]
      constructor
      · intro h z hz
        rcases hz with rfl | hz
        · exact hy
        · exact h z hz
      · intro h z hz
        exact h z (Or.inr hz)

theorem countLt_map_eq (f : Nat → Nat) (x x' : Nat) (l : List Nat)
    (h : ∀ y ∈ l, (f y < x ↔ y < x')) :
    countLt x (l.map f) = countLt x' l := by
  induction l with
  | nil => rfl
  | cons y ys ih =>
    simp only [List.map_cons, countLt]
    rw [ih (fun z hz => h z (List.mem_cons_of_mem y hz))]
    have hy := h y (List.mem_cons_self y ys)
    by_cases hfy : f y < x
    · simp [hfy, hy.mp hfy]
    · have : ¬ y < x' := fun hc => hfy (hy.mpr hc)
      simp [hfy, this]

theorem countLt_succ_eq (v : Nat) (l : List Nat) :
    countLt (v+1) l = countLt v l + l.count v := by
  induction l with
  | nil => rfl
  | cons y ys ih =>
    simp only [countLt, ih]
    by_cases hy : y = v
    · subst hy
      simp [List.count_cons_self, Nat.lt_irrefl, Nat.lt_succ_self]
      omega
    · rw [List.count_cons_of_ne (by exact fun h => hy h.symm)]
      have : (y < v + 1) ↔ (y < v) := by omega
      simp only [this]
      omega

/-! Effect of a value swap on the inversion number. -/

theorem invCount_swapValues_of_left_absent {v : Nat} {l : List Nat} (hv : v ∉ l) :
    invCount (swapValues v l) = invCount l := by
  induction l with
  | nil => rfl
  | cons y ys ih =>
    have hvy : v ∉ ys := fun h => hv (List.mem_cons_of_mem y h)
    have hyne : y ≠ v := fun h => hv (h ▸ List.mem_cons_self y ys)
    simp only [swapValues, List.map_cons, invCount] at *
    rw [ih hvy]
    congr 1
    by_cases hy1 : y = v + 1
    · subst hy1
      have hfy : swapVal v (v+1) = v := by simp [swapVal]
      rw [hfy]
      apply countLt_map_eq
      intro z hz
      have hzv : z ≠ v := fun h => hvy (h ▸ hz)
      unfold swapVal
      by_cases h1 : z = v
      · exact absurd h1 hzv
      · by_cases h2 : z = v + 1 <;> simp [h1, h2] <;> omega
    · have hfy : swapVal v y = y := by simp [swapVal, hyne, hy1]
      rw [hfy]
      apply countLt_map_eq
      intro z hz
      have hzv : z ≠ v := fun h => hvy (h ▸ hz)
      unfold swapVal
      by_cases h1 : z = v
      · exact absurd h1 hzv
      · by_cases h2 : z = v + 1 <;> simp [h1, h2] <;> omega

theorem invCount_swapValues_of_right_absent {v : Nat} {l : List Nat} (hv : v + 1 ∉ l) :
    invCount (swapValues v l) = invCount l := by
  induction l with
  | nil => rfl
  | cons y ys ih =>
    have hvy : v + 1 ∉ ys := fun h => hv (List.mem_cons_of_mem y h)
    have hyne : y ≠ v + 1 := fun h => hv (h ▸ List.mem_cons_self y ys)
    simp only [swapValues, List.map_cons, invCount] at *
    rw [ih hvy]
    congr 1
    by_cases hy1 : y = v
    · have hfy : swapVal v y = v + 1 := by simp [swapVal, hy1]
      rw [hfy, hy1]
      apply countLt_map_eq
      intro z hz
      have hzv : z ≠ v + 1 := fun h => hvy (h ▸ hz)
      unfold swapVal
      by_cases h1 : z = v
      · simp [h1]
      · simp [h1, hzv]; omega
    · have hfy : swapVal v y = y := by simp [swapVal, hyne, hy1]
      rw [hfy]
      apply countLt_map_eq
      intro z hz
      have hzv : z ≠ v + 1 := fun h => hvy (h ▸ hz)
      unfold swapVal
      by_cases h1 : z = v
      · simp [h1]; omega
      · simp [h1, hzv]

theorem countLt_swap_head {v : Nat} (ys : List Nat) (hv : v ∉ ys) :
    countLt (v+1) (ys.map (swapVal v)) = countLt v ys + ys.count (v+1) := by
  induction ys with
  | nil => simp [countLt]
  | cons z zs ih =>
    have hzv : z ≠ v := fun h => hv (h ▸ List.mem_cons_self z zs)
    have hvzs : v ∉ zs := fun h => hv (List.mem_cons_of_mem z h)
    simp only [List.map_cons, countLt]
    rw [ih hvzs]
    by_cases hz1 : z = v + 1
    · have hfz : swapVal v z = v := by simp [swapVal, hz1]
      rw [hfz, hz1]
      rw [List.count_cons_self]
      simp [Nat.lt_irrefl, Nat.lt_succ_self]
      omega
    · have hfz : swapVal v z = z := by simp [swapVal, hzv, hz1]
      rw [hfz, List.count_cons_of_ne (fun h => hz1 h.symm)]
      have : (z < v + 1) ↔ (z < v) := by omega
      simp only [this]
      omega

theorem invCount_swapValues_before {v : Nat} {l : List Nat}
    (h1 : l.count v ≤ 1) (h2 : l.count (v+1) ≤ 1)
    (hv1 : v + 1 ∈ l) (hcb : comesBefore v (v+1) l = true) :
    invCount (swapValues v l) = invCount l + 1 := by
  induction l with
  | nil => cases hv1
  | cons y ys ih =>
    by_cases hy : y = v
    · have hvys : v ∉ ys := by
        rw [hy] at h1
        rw [List.count_cons_self] at h1
        have : ys.count v = 0 := by omega
        exact fun hm => by
          have := List.count_pos_iff.mpr hm
          omega
      have hv1ys : v + 1 ∈ ys := by
        rcases List.mem_cons.mp hv1 with h | h
        · omega
        · exact h
      have hc2 : ys.count (v+1) = 1 := by
        have hle : ys.count (v+1) ≤ 1 := by
          rw [List.count_cons_of_ne (by omega)] at h2
          exact h2
        have hge := List.count_pos_iff.mpr hv1ys
        omega
      simp only [swapValues, List.map_cons, invCount]
      have hfy : swapVal v y = v + 1 := by simp [swapVal, hy]
      rw [hfy, hy]
      rw [show List.map (swapVal v) ys = swapValues v ys from rfl]
      rw [invCount_swapValues_of_left_absent hvys]
      rw [show swapValues v ys = List.map (swapVal v) ys from rfl]
      rw [countLt_swap_head ys hvys, hc2]
      omega
    · by_cases hy1 : y = v + 1
      · exfalso
        rw [hy1] at hcb
        unfold comesBefore at hcb
        have : v + 1 ≠ v := by omega
        simp [this] at hcb
      · have hv1ys : v + 1 ∈ ys := by
          rcases List.mem_cons.mp hv1 with h | h
          · exact absurd h.symm hy1
          · exact h
        have h1ys : ys.count v ≤ 1 := by
          rw [List.count_cons_of_ne (fun h => hy h.symm)] at h1
          exact h1
        have h2ys : ys.count (v+1) ≤ 1 := by
          rw [List.count_cons_of_ne (fun h => hy1 h.symm)] at h2
          exact h2
        have hcbys : comesBefore v (v+1) ys = true := by
          unfold comesBefore at hcb
          simp [hy, hy1] at hcb
          exact hcb
        simp only [swapValues, List.map_cons, invCount]
        have hfy : swapVal v y = y := by simp [swapVal, hy, hy1]
        rw [hfy]
        rw [show List.map (swapVal v) ys = swapValues v ys from rfl]
        rw [ih h1ys h2ys hv1ys hcbys]
        rw [show swapValues v ys = List.map (swapVal v) ys from rfl]
        have hcnt : countLt y (List.map (swapVal v) ys) = countLt y ys := by
          apply countLt_map_eq
          intro z hz
          unfold swapVal
          by_cases hz1 : z = v
          · simp [hz1]; omega
          · by_cases hz2 : z = v + 1
            · simp [hz1, hz2]; omega
            · simp [hz1, hz2]
        rw [hcnt]
        omega

theorem invCount_swapValues_after {v : Nat} {l : List Nat}
    (h1 : l.count v ≤ 1) (h2 : l.count (v+1) ≤ 1)
    (hv : v ∈ l) (hcb : comesBefore v (v+1) l = false) :
    invCount l = invCount (swapValues v l) + 1 := by
  induction l with
  | nil => cases hv
  | cons y ys ih =>
    by_cases hy : y = v
    · exfalso
      rw [hy] at hcb
      unfold comesBefore at hcb
      simp at hcb
    · by_cases hy1 : y = v + 1
      · have hv1ys : v + 1 ∉ ys := by
          rw [hy1, List.count_cons_self] at h2
          have : ys.count (v+1) = 0 := by omega
          exact fun hm => by
            have := List.count_pos_iff.mpr hm
            omega
        have hvys : v ∈ ys := by
          rcases List.mem_cons.mp hv with h | h
          · omega
          · exact h
        have hc1 : ys.count v = 1 := by
          have hle : ys.count v ≤ 1 := by
            rw [List.count_cons_of_ne (by omega)] at h1
            exact h1
          have hge := List.count_pos_iff.mpr hvys
          omega
        simp only [swapValues, List.map_cons, invCount]
        have hfy : swapVal v y = v := by simp [swapVal, hy1, Nat.succ_ne_self]
        rw [hfy, hy1]
        rw [show List.map (swapVal v) ys = swapValues v ys from rfl]
        rw [invCount_swapValues_of_right_absent hv1ys]
        rw [show swapValues v ys = List.map (swapVal v) ys from rfl]
        have hcnt : countLt v (List.map (swapVal v) ys) = countLt v ys := by
          apply countLt_map_eq
          intro z hz
          have hzne : z ≠ v + 1 := fun h => hv1ys (h ▸ hz)
          unfold swapVal
          by_cases hz1 : z = v
          · simp [hz1]
          · simp [hz1, hzne]
        rw [hcnt, countLt_succ_eq, hc1]
        omega
      · have hvys : v ∈ ys := by
          rcases List.mem_cons.mp hv with h | h
          · exact absurd h.symm hy
          · exact h
        have h1ys : ys.count v ≤ 1 := by
          rw [List.count_cons_of_ne (fun h => hy h.symm)] at h1
          exact h1
        have h2ys : ys.count (v+1) ≤ 1 := by
          rw [List.count_cons_of_ne (fun h => hy1 h.symm)] at h2
          exact h2
        have hcbys : comesBefore v (v+1) ys = false := by
          unfold comesBefore at hcb
          simp [hy, hy1] at hcb
          exact hcb
        simp only [swapValues, List.map_cons, invCount]
        have hfy : swapVal v y = y := by simp [swapVal, hy, hy1]
        rw [hfy]
        rw [show List.map (swapVal v) ys = swapValues v ys from rfl]
        rw [ih h1ys h2ys hvys hcbys]
        rw [show swapValues v ys = List.map (swapVal v) ys from rfl]
        have hcnt : countLt y (List.map (swapVal v) ys) = countLt y ys := by
          apply countLt_map_eq
          intro z hz
          unfold swapVal
          by_cases hz1 : z = v
          · simp [hz1]; omega
          · by_cases hz2 : z = v + 1
            · simp [hz1, hz2]; omega
            · simp [hz1, hz2]
        rw [hcnt]
        omega

/-! Sortedness, extremal values and descents of the inversion number. -/

theorem invCount_of_pairwise_le {l : List Nat} (h : l.Pairwise (· ≤ ·)) :
    invCount l = 0 := by
  induction l with
  | nil => rfl
  | cons x xs ih =>
    rcases List.pairwise_cons.mp h with ⟨hx, hxs⟩
    simp only [invCount, ih hxs]
    have : countLt x xs = 0 := (countLt_eq_zero_iff x xs).mpr (fun y hy => by
      have := hx y hy
      omega)
    omega

theorem pairwise_le_of_invCount_zero {l : List Nat} (h : invCount l = 0) :
    l.Pairwise (· ≤ ·) := by
  induction l with
  | nil => exact List.Pairwise.nil
  | cons x xs ih =>
    simp only [invCount] at h
    have h1 : countLt x xs = 0 := by omega
    have h2 : invCount xs = 0 := by omega
    refine List.pairwise_cons.mpr ⟨fun y hy => ?_, ih h2⟩
    have := (countLt_eq_zero_iff x xs).mp h1 y hy
    omega

theorem invCount_range (m : Nat) : invCount (List.range m) = 0 :=
  invCount_of_pairwise_le ((List.pairwise_lt_range m).imp (fun h => Nat.le_of_lt h))

theorem invCount_base (n : Nat) : invCount (baseArrangement n) = 0 :=
  invCount_range _

theorem eq_range_of_invCount_zero {l : List Nat} {n : Nat}
    (hp : l.Perm (List.range n)) (h : invCount l = 0) : l = List.range n := by
  have h1 : l.Sorted (· ≤ ·) := pairwise_le_of_invCount_zero h
  have h2 : (List.range n).Sorted (· ≤ ·) :=
    (List.pairwise_lt_range n).imp (fun h => Nat.le_of_lt h)
  exact List.eq_of_perm_of_sorted hp h1 h2

theorem tri_succ (m : Nat) : (m + 1) * m / 2 = m * (m - 1) / 2 + m := by
  have he1 : 2 ∣ (m + 1) * m := by
    rw [Nat.mul_comm]
    exact (Nat.even_mul_succ_self m).two_dvd
  have he2 : 2 ∣ m * (m - 1) := by
    cases m with
    | zero => simp
    | succ k =>
      have : Even ((k + 1) * k) := by
        rw [Nat.mul_comm]
        exact Nat.even_mul_succ_self k
      simpa using this.two_dvd
  have h1 := Nat.div_mul_cancel he1
  have h2 := Nat.div_mul_cancel he2
  have h3 : (m + 1) * m = m * (m - 1) + 2 * m := by
    cases m with
    | zero => rfl
    | succ k =>
      simp only [Nat.add_sub_cancel]
      ring
  omega

theorem invCount_le_tri (l : List Nat) : invCount l ≤ l.length * (l.length - 1) / 2 := by
  induction l with
  | nil => exact Nat.le_refl 0
  | cons x xs ih =>
    simp only [invCount, List.length_cons, Nat.add_sub_cancel]
    have h1 := countLt_le_length x xs
    have h2 := tri_succ xs.length
    omega

theorem pairwise_gt_of_invCount_eq_tri {l : List Nat}
    (h : invCount l = l.length * (l.length - 1) / 2) : l.Pairwise (· > ·) := by
  induction l with
  | nil => exact List.Pairwise.nil
  | cons x xs ih =>
    simp only [invCount, List.length_cons, Nat.add_sub_cancel] at h
    rw [tri_succ xs.length] at h
    have h1 := countLt_le_length x xs
    have h2 := invCount_le_tri xs
    have hc : countLt x xs = xs.length := by omega
    have hi : invCount xs = xs.length * (xs.length - 1) / 2 := by omega
    exact List.pairwise_cons.mpr ⟨(countLt_eq_length_iff x xs).mp hc, ih hi⟩

theorem invCount_eq_tri_of_pairwise_gt {l : List Nat} (h : l.Pairwise (· > ·)) :
    invCount l = l.length * (l.length - 1) / 2 := by
  induction l with
  | nil => rfl
  | cons x xs ih =>
    rcases List.pairwise_cons.mp h with ⟨hx, hxs⟩
    simp only [invCount, List.length_cons, Nat.add_sub_cancel]
    rw [tri_succ xs.length, ih hxs]
    have : countLt x xs = xs.length := (countLt_eq_length_iff x xs).mpr hx
    omega

theorem invCount_reverse_range (n : Nat) :
    invCount (List.range n).reverse = n * (n - 1) / 2 := by
  have hp : ((List.range n).reverse).Pairwise (· > ·) := by
    rw [List.pairwise_reverse]
    exact List.pairwise_lt_range n
  have := invCount_eq_tri_of_pairwise_gt hp
  simpa using this

theorem eq_reverse_range_of_invCount_max {l : List Nat} {n : Nat}
    (hp : l.Perm (List.range n)) (h : invCount l = n * (n - 1) / 2) :
    l = (List.range n).reverse := by
  have hlen : l.length = n := by
    have := hp.length_eq
    simpa using this
  have hgt : l.Pairwise (· > ·) := pairwise_gt_of_invCount_eq_tri (by rw [hlen]; exact h)
  have hrev : l.reverse = List.range n := by
    have hs1 : (l.reverse).Sorted (· ≤ ·) := by
      rw [List.Sorted, List.pairwise_reverse]
      exact hgt.imp (fun h => Nat.le_of_lt h)
    have hs2 : (List.range n).Sorted (· ≤ ·) :=
      (List.pairwise_lt_range n).imp (fun h => Nat.le_of_lt h)
    exact List.eq_of_perm_of_sorted ((l.reverse_perm).trans hp) hs1 hs2
  calc l = l.reverse.reverse := (List.reverse_reverse l).symm
  _ = (List.range n).reverse := by rw [hrev]

/-! Adjacent position swaps change the inversion number by at most one. -/

theorem invCount_middle_swap_le (A : List Nat) (x y : Nat) (B : List Nat) :
    invCount (A ++ y :: x :: B) ≤ invCount (A ++ x :: y :: B) + 1 := by
  induction A with
  | nil =>
    simp only [List.nil_append, invCount, countLt]
    by_cases h1 : x < y <;> by_cases h2 : y < x <;> simp [h1, h2] <;> omega
  | cons a A ih =>
    simp only [List.cons_append, invCount, List.append_eq]
    have hperm : (A ++ y :: x :: B).Perm (A ++ x :: y :: B) :=
      List.Perm.append_left A (List.Perm.swap x y B)
    rw [countLt_perm a hperm]
    omega

theorem exists_middle_decomp {l : List Nat} {k : Nat} (h : k + 1 < l.length) :
    ∃ A x y B, l = A ++ x :: y :: B ∧ A.length = k := by
  induction k generalizing l with
  | zero =>
    match l, h with
    | x :: y :: rest, _ => exact ⟨[], x, y, rest, rfl, rfl⟩
  | succ k ih =>
    match l, h with
    | a :: rest, h =>
      have : k + 1 < rest.length := by
        simp only [List.length_cons] at h
        omega
      rcases ih this with ⟨A, x, y, B, heq, hlen⟩
      exact ⟨a :: A, x, y, B, by rw [heq]; rfl, by simp [hlen]⟩

theorem invCount_swapAdj_le (k : Nat) (l : List Nat) :
    invCount (swapAdj k l) ≤ invCount l + 1 := by
  by_cases h : l.length ≤ k + 1
  · rw [swapAdj_of_length_le k l h]
    omega
  · rcases exists_middle_decomp (l := l) (k := k) (by omega) with ⟨A, x, y, B, heq, hlen⟩
    rw [heq, swapAdj_append k A x y B hlen]
    exact invCount_middle_swap_le A x y B

theorem invCount_applyGen_le (g : Nat) (l : List Nat) :
    invCount (applyGen g l) ≤ invCount l + 1 := by
  unfold applyGen
  split
  · omega
  · exact invCount_swapAdj_le _ _

theorem invCount_wordProd_le (w : List Nat) (n : Nat) :
    invCount (wordProd w n) ≤ w.length := by
  induction w with
  | nil =>
    simp only [wordProd_nil, List.length_nil]
    rw [invCount_base]
  | cons g w ih =>
    rw [wordProd_cons]
    have := invCount_applyGen_le g (wordProd w n)
    simp only [List.length_cons]
    omega

/-! Occurrence-order utilities. -/

theorem comesBefore_total {a b : Nat} {l : List Nat}
    (ha : a ∈ l) (hb : b ∈ l) (hne : a ≠ b) :
    comesBefore a b l = true ∨ comesBefore b a l = true := by
  induction l with
  | nil => cases ha
  | cons x xs ih =>
    by_cases hxa : x = a
    · left
      simp [comesBefore, hxa]
    · by_cases hxb : x = b
      · right
        simp [comesBefore, hxb]
      · have ha' : a ∈ xs := by
          rcases List.mem_cons.mp ha with h | h
          · exact absurd h.symm hxa
          · exact h
        have hb' : b ∈ xs := by
          rcases List.mem_cons.mp hb with h | h
          · exact absurd h.symm hxb
          · exact h
        rcases ih ha' hb' with h | h
        · left
          simpa [comesBefore, hxa, hxb] using h
        · right
          simpa [comesBefore, hxb, hxa] using h

theorem comesBefore_asymm {a b : Nat} {l : List Nat}
    (h : comesBefore a b l = true) (hne : a ≠ b) :
    comesBefore b a l = false := by
  induction l with
  | nil => simp [comesBefore] at h
  | cons x xs ih =>
    by_cases hxa : x = a
    · have hxb : ¬ x = b := by rw [hxa]; exact hne
      unfold comesBefore
      simp [hxa, hxb]
      exact hne
    · by_cases hxb : x = b
      · exfalso
        unfold comesBefore at h
        simp [hxa, hxb] at h
        exact hne h.symm
      · unfold comesBefore at h ⊢
        simp only [hxa, hxb, if_false] at h ⊢
        exact ih h

theorem comesBefore_range' {a b s m : Nat} (hsa : s ≤ a) (hab : a < b) (hbm : b < s + m) :
    comesBefore a b (List.range' s m) = true := by
  induction m generalizing s with
  | zero => omega
  | succ m ih =>
    rw [List.range'_succ]
    by_cases hsa' : s = a
    · simp [comesBefore, hsa']
    · have h1 : s ≠ b := by omega
      unfold comesBefore
      simp only [hsa', h1, if_false]
      exact ih (by omega) (by omega)

theorem eq_range'_of_forall_comesBefore :
    ∀ (m s : Nat) (l : List Nat), l.Perm (List.range' s m) →
    (∀ v, s ≤ v → v + 1 < s + m → comesBefore v (v+1) l = true) →
    l = List.range' s m := by
  intro m
  induction m with
  | zero =>
    intro s l hp _
    simpa using hp.eq_nil
  | succ m ih =>
    intro s l hp hcb
    rw [List.range'_succ] at hp ⊢
    match l, hp with
    | [], hp => exact absurd hp.length_eq (by simp)
    | x :: xs, hp =>
      have hx : x = s := by
        by_contra hxs
        have hxmem : x ∈ s :: List.range' (s+1) m :=
          hp.mem_iff.mp (List.mem_cons_self x xs)
        have hxr : x ∈ List.range' (s+1) m := by
          rcases List.mem_cons.mp hxmem with h | h
          · exact absurd h hxs
          · exact h
        rcases List.mem_range'_1.mp hxr with ⟨hx1, hx2⟩
        have hxpos : 1 ≤ x := by omega
        have hcbx := hcb (x - 1) (by omega) (by omega)
        have hxe : x - 1 + 1 = x := by omega
        rw [hxe] at hcbx
        unfold comesBefore at hcbx
        have h1 : ¬ x = x - 1 := by omega
        simp [h1] at hcbx
      subst hx
      have hxs : xs.Perm (List.range' (x+1) m) := hp.cons_inv
      have hcbxs : ∀ v, x + 1 ≤ v → v + 1 < (x+1) + m → comesBefore v (v+1) xs = true := by
        intro v hv1 hv2
        have := hcb v (by omega) (by omega)
        unfold comesBefore at this
        have h1 : ¬ x = v := by omega
        have h2 : ¬ x = v + 1 := by omega
        simpa [h1, h2] using this
      rw [ih (x+1) xs hxs hcbxs]

theorem exists_descent {l : List Nat} {n : Nat} (hp : l.Perm (List.range n))
    (hne : l ≠ List.range n) :
    ∃ v, v + 1 < n ∧ comesBefore (v+1) v l = true := by
  by_contra hno
  push_neg at hno
  apply hne
  have hforall : ∀ v, 0 ≤ v → v + 1 < 0 + n → comesBefore v (v+1) l = true := by
    intro v _ hv
    have hv1 : v ∈ l := (hp.mem_iff).mpr (List.mem_range.mpr (by omega))
    have hv2 : v + 1 ∈ l := (hp.mem_iff).mpr (List.mem_range.mpr (by omega))
    rcases comesBefore_total hv2 hv1 (by omega) with h | h
    · exact absurd h (by simpa using hno v (by omega))
    · exact h
  have := eq_range'_of_forall_comesBefore n 0 l (by rwa [← List.range_eq_range']) hforall
  rwa [List.range_eq_range']

theorem count_le_one_of_perm_range {l : List Nat} {n a : Nat}
    (hp : l.Perm (List.range n)) : l.count a ≤ 1 := by
  rw [hp.count_eq]
  exact (List.nodup_iff_count_le_one.mp (List.nodup_range n)) a

theorem swapValues_perm_range {l : List Nat} {n v : Nat} (hp : l.Perm (List.range n))
    (hv : v + 1 < n) : (swapValues v l).Perm (List.range n) := by
  have h1 : (swapValues v l).Perm (swapValues v (List.range n)) := hp.map _
  have h2 : swapValues v (List.range n) = swapAdj v (List.range n) := map_swapVal_range hv
  exact h1.trans (h2 ▸ swapAdj_perm v (List.range n))

theorem invCount_swapValues_of_perm {l : List Nat} {n v : Nat}
    (hp : l.Perm (List.range n)) (hv : v + 1 < n) :
    (comesBefore v (v+1) l = true ∧ invCount (swapValues v l) = invCount l + 1) ∨
    (comesBefore v (v+1) l = false ∧ invCount l = invCount (swapValues v l) + 1) := by
  have hvl : v ∈ l := hp.mem_iff.mpr (List.mem_range.mpr (by omega))
  have hv1l : v + 1 ∈ l := hp.mem_iff.mpr (List.mem_range.mpr hv)
  have h1 : l.count v ≤ 1 := count_le_one_of_perm_range hp
  have h2 : l.count (v+1) ≤ 1 := count_le_one_of_perm_range hp
  cases hcb : comesBefore v (v+1) l with
  | true => exact Or.inl ⟨rfl, invCount_swapValues_before h1 h2 hv1l hcb⟩
  | false => exact Or.inr ⟨rfl, invCount_swapValues_after h1 h2 hvl hcb⟩

theorem exists_lowering_swap {e : List Nat} {n : Nat} (hp : e.Perm (List.range n))
    (hne : e ≠ List.range n) :
    ∃ v, v + 1 < n ∧ invCount e = invCount (swapValues v e) + 1 := by
  rcases exists_descent hp hne with ⟨v, hv, hcb⟩
  have hcbf : comesBefore v (v+1) e = false := comesBefore_asymm hcb (by omega)
  rcases invCount_swapValues_of_perm hp hv with ⟨hcbt, _⟩ | ⟨_, h⟩
  · rw [hcbt] at hcbf
    cases hcbf
  · exact ⟨v, hv, h⟩

theorem invCount_swapValues_range {n v : Nat} (hv : v + 1 < n) :
    invCount (swapValues v (List.range n)) = 1 := by
  rcases invCount_swapValues_of_perm (List.Perm.refl (List.range n)) hv with ⟨_, h⟩ | ⟨hcb, _⟩
  · rw [h, invCount_range]
  · exfalso
    have hr : comesBefore v (v+1) (List.range n) = true := by
      rw [List.range_eq_range']
      exact comesBefore_range' (Nat.zero_le v) (by omega) (by omega)
    rw [hr] at hcb
    cases hcb

/-! Agreement of the faithful evaluator with the total one. -/

/-- Convenience form of `wordProd` on source-typed (integer) words. -/
def wordProdI (w : List Int) (n : Nat) : List Nat := wordProd (w.map Int.toNat) n

theorem foldlM_applyGenE_ok (n : Nat) (l : List Int) :
    ∀ (el : List Nat), el.length = min n alphaLen →
    (∀ g ∈ l, 0 ≤ g ∧ g < (n : Int) ∧ g < 26) →
    l.foldlM (fun el i => applyGenE n el i) el =
      .ok (l.foldl (fun e g => applyGen g.toNat e) el) := by
  induction l with
  | nil => intro el _ _; rfl
  | cons a l ih =>
    intro el hlen hg
    rcases hg a (List.mem_cons_self a l) with ⟨ha0, han, ha26⟩
    have h26 : alphaLen = 26 := rfl
    have hstep : applyGenE n el a = .ok (applyGen a.toNat el) := by
      unfold applyGenE applyGen
      have h1 : ¬ (a < 0 ∨ (n : Int) ≤ a) := by omega
      rw [if_neg h1]
      by_cases h2 : a = 0
      · have h2' : a.toNat = 0 := by omega
        simp [h2, h2']
      · have h2' : ¬ a.toNat = 0 := by omega
        have h3 : a.toNat < el.length := by omega
        simp [h2, h2', h3]
    rw [List.foldlM_cons, hstep]
    have hlen' : (applyGen a.toNat el).length = min n alphaLen := by
      rw [applyGen_length, hlen]
    have := ih (applyGen a.toNat el) hlen' (fun g hgl => hg g (List.mem_cons_of_mem a hgl))
    simpa using this

theorem standard_product_ok (w : List Int) (n : Nat)
    (hg : ∀ g ∈ w, 0 ≤ g ∧ g < (n : Int) ∧ g < 26) :
    standard_product w n = .ok (wordProdI w n) := by
  unfold standard_product
  rw [foldlM_applyGenE_ok n w.reverse (baseArrangement n)
      (by simp [baseArrangement]) (fun g hgl => hg g (List.mem_reverse.mp hgl))]
  congr 1
  rw [List.foldl_reverse]
  unfold wordProdI wordProd
  rw [List.foldr_map]

theorem foldlM_applyGenE_error (n : Nat) (l : List Int) :
    ∀ (el : List Nat), el.length = n →
    (∃ g ∈ l, g < 0 ∨ (n : Int) ≤ g) →
    l.foldlM (fun el i => applyGenE n el i) el = .error .valueError := by
  induction l with
  | nil => intro el _ h; simp at h
  | cons a l ih =>
    intro el hlen hbad
    by_cases ha : a < 0 ∨ (n : Int) ≤ a
    · have hstep : applyGenE n el a = .error .valueError := by
        unfold applyGenE
        rw [if_pos ha]
      rw [List.foldlM_cons, hstep]
      rfl
    · have hstep : applyGenE n el a = .ok (applyGen a.toNat el) := by
        unfold applyGenE applyGen
        rw [if_neg ha]
        by_cases h2 : a = 0
        · have h2' : a.toNat = 0 := by omega
          simp [h2, h2']
        · have h2' : ¬ a.toNat = 0 := by omega
          have h3 : a.toNat < el.length := by omega
          simp [h2, h2', h3]
      rw [List.foldlM_cons, hstep]
      have hbad' : ∃ g ∈ l, g < 0 ∨ (n : Int) ≤ g := by
        rcases hbad with ⟨g, hgmem, hgbad⟩
        rcases List.mem_cons.mp hgmem with rfl | hgl
        · exact absurd hgbad ha
        · exact ⟨g, hgl, hgbad⟩
      have hlen' : (applyGen a.toNat el).length = n := by
        rw [applyGen_length, hlen]
      have := ih (applyGen a.toNat el) hlen' hbad'
      simpa using this

theorem foldlM_applyGenE_exists_ok (n : Nat) (l : List Int) :
    ∀ (el : List Nat), el.length = n →
    (∀ g ∈ l, 0 ≤ g ∧ g < (n : Int)) →
    ∃ e, l.foldlM (fun el i => applyGenE n el i) el = .ok e ∧ e.length = n := by
  induction l with
  | nil => intro el hlen _; exact ⟨el, rfl, hlen⟩
  | cons a l ih =>
    intro el hlen hg
    rcases hg a (List.mem_cons_self a l) with ⟨ha0, han⟩
    have hstep : applyGenE n el a = .ok (applyGen a.toNat el) := by
      unfold applyGenE applyGen
      have h1 : ¬ (a < 0 ∨ (n : Int) ≤ a) := by omega
      rw [if_neg h1]
      by_cases h2 : a = 0
      · have h2' : a.toNat = 0 := by omega
        simp [h2, h2']
      · have h2' : ¬ a.toNat = 0 := by omega
        have h3 : a.toNat < el.length := by omega
        simp [h2, h2', h3]
    have hlen' : (applyGen a.toNat el).length = n := by
      rw [applyGen_length, hlen]
    rcases ih (applyGen a.toNat el) hlen' (fun g hgl => hg g (List.mem_cons_of_mem a hgl))
      with ⟨e, he, helen⟩
    refine ⟨e, ?_, helen⟩
    rw [List.foldlM_cons, hstep]
    simpa using he

/-! Specification lemmas for the insert-or-ignore operations. -/

theorem insertLength_words (s : Store) (e : List Nat) (n L : Nat) :
    (insertLength s e n L).words = s.words := by
  unfold insertLength
  split <;> rfl

theorem insertWord_lengths (s : Store) (e : List Nat) (n : Nat) (w : List Nat) :
    (insertWord s e n w).lengths = s.lengths := by
  unfold insertWord
  split <;> rfl

theorem insertLength_mem_mono {s : Store} {e : List Nat} {n L : Nat} {r} (h : r ∈ s.lengths) :
    r ∈ (insertLength s e n L).lengths := by
  unfold insertLength
  split
  · exact h
  · exact List.mem_append_left _ h

theorem insertLength_mem_cases {s : Store} {e : List Nat} {n L : Nat} {r}
    (h : r ∈ (insertLength s e n L).lengths) : r ∈ s.lengths ∨ r = (e, n, L) := by
  unfold insertLength at h
  split at h
  · exact Or.inl h
  · rcases List.mem_append.mp h with h | h
    · exact Or.inl h
    · exact Or.inr (by simpa using h)

theorem insertLength_key_present {s : Store} {e : List Nat} {n L : Nat} :
    ∃ r ∈ (insertLength s e n L).lengths, r.1 = e := by
  unfold insertLength
  split
  · rename_i h
    rcases List.any_eq_true.mp h with ⟨r, hr, hre⟩
    exact ⟨r, hr, by simpa using hre⟩
  · exact ⟨(e, n, L), List.mem_append_right _ (List.mem_singleton.mpr rfl), rfl⟩

theorem insertLength_nodup {s : Store} {e : List Nat} {n L : Nat}
    (h : (s.lengths.map (fun r => r.1)).Nodup) :
    ((insertLength s e n L).lengths.map (fun r => r.1)).Nodup := by
  unfold insertLength
  split
  · exact h
  · rename_i hc
    have hne : ∀ r ∈ s.lengths, r.1 ≠ e := by
      intro r hr hre
      exact hc (List.any_eq_true.mpr ⟨r, hr, by simp [hre]⟩)
    rw [List.map_append]
    rw [List.nodup_append]
    refine ⟨h, List.nodup_singleton e, ?_⟩
    intro a ha hb
    rcases List.mem_map.mp ha with ⟨r, hr, hre⟩
    have hae : a = e := by simpa using hb
    exact hne r hr (by rw [hre, hae])

theorem insertWord_mem_mono {s : Store} {e : List Nat} {n : Nat} {w : List Nat} {r}
    (h : r ∈ s.words) : r ∈ (insertWord s e n w).words := by
  unfold insertWord
  split
  · exact h
  · exact List.mem_append_left _ h

theorem insertWord_mem_cases {s : Store} {e : List Nat} {n : Nat} {w : List Nat} {r}
    (h : r ∈ (insertWord s e n w).words) : r ∈ s.words ∨ r = (e, n, w) := by
  unfold insertWord at h
  split at h
  · exact Or.inl h
  · rcases List.mem_append.mp h with h | h
    · exact Or.inl h
    · exact Or.inr (by simpa using h)

theorem insertWord_key_present {s : Store} {e : List Nat} {n : Nat} {w : List Nat} :
    ∃ r ∈ (insertWord s e n w).words, r.2.2 = w ∧ r.2.1 = n := by
  unfold insertWord
  split
  · rename_i h
    rcases List.any_eq_true.mp h with ⟨r, hr, hre⟩
    refine ⟨r, hr, ?_⟩
    have := of_decide_eq_true hre
    exact this
  · exact ⟨(e, n, w), List.mem_append_right _ (List.mem_singleton.mpr rfl), rfl, rfl⟩

theorem insertWord_nodup {s : Store} {e : List Nat} {n : Nat} {w : List Nat}
    (h : (s.words.map (fun r => (r.2.1, r.2.2))).Nodup) :
    ((insertWord s e n w).words.map (fun r => (r.2.1, r.2.2))).Nodup := by
  unfold insertWord
  split
  · exact h
  · rename_i hc
    have hne : ∀ r ∈ s.words, ¬ (r.2.2 = w ∧ r.2.1 = n) := by
      intro r hr hre
      exact hc (List.any_eq_true.mpr ⟨r, hr, by simp [hre.1, hre.2]⟩)
    rw [List.map_append]
    rw [List.nodup_append]
    refine ⟨h, List.nodup_singleton _, ?_⟩
    intro a ha hb
    rcases List.mem_map.mp ha with ⟨r, hr, hre⟩
    have ha' : a = (n, w) := by simpa using hb
    refine hne r hr ?_
    rw [ha'] at hre
    have h1 := congrArg Prod.fst hre
    have h2 := congrArg Prod.snd hre
    simp at h1 h2
    exact ⟨h2, h1⟩

/-! Invariants of the cache build. -/

theorem perm_range_length {e : List Nat} {n : Nat} (h : e.Perm (List.range n)) :
    e.length = n := by
  have := h.length_eq
  simpa using this

/-- Rows of a store the build for size `n` must not interfere with: other
ambient sizes only, and (since their elements are arrangements of other
sizes) no element string of length `n`. -/
structure AmbOK (n : Nat) (amb : Store) : Prop where
  len_sep : ∀ r ∈ amb.lengths, r.2.1 ≠ n ∧ r.1.length ≠ n
  word_sep : ∀ r ∈ amb.words, r.2.1 ≠ n

/-- Invariant of the store during the layered build for size `n` over an
untouched ambient store `amb`: the fresh rows are sound (`n`-arrangements
with their true inversion number, words evaluating to their element), the
slice is complete up to layer `lo` and bounded by `hi`, both primary keys
stay duplicate-free, and every fresh length row has a witnessing word row. -/
structure BuildState (n lo hi : Nat) (amb s : Store) : Prop where
  amb_len : ∀ r ∈ amb.lengths, r ∈ s.lengths
  amb_word : ∀ r ∈ amb.words, r ∈ s.words
  new_len : ∀ r ∈ s.lengths, r ∈ amb.lengths ∨
      (r.2.1 = n ∧ r.1.Perm (List.range n) ∧ r.2.2 = invCount r.1 ∧ invCount r.1 ≤ hi)
  new_word : ∀ r ∈ s.words, r ∈ amb.words ∨
      (r.2.1 = n ∧ wordProd r.2.2 n = r.1 ∧ r.2.2.length = invCount r.1 ∧
       invCount r.1 ≤ hi ∧ ∀ g ∈ r.2.2, 1 ≤ g ∧ g < n)
  complete : ∀ e : List Nat, e.Perm (List.range n) → invCount e ≤ lo →
      (e, n, invCount e) ∈ s.lengths
  len_nodup : (s.lengths.map (fun r => r.1)).Nodup
  word_nodup : (s.words.map (fun r => (r.2.1, r.2.2))).Nodup
  witness : ∀ r ∈ s.lengths, r ∉ amb.lengths → ∃ w, (r.1, n, w) ∈ s.words

theorem buildInsert_spec {n L : Nat} {check : List (List Nat)} {amb s : Store}
    {w old : List Nat} {i : Nat}
    (hn26 : n ≤ 26) (hamb : AmbOK n amb)
    (hc2 : ∀ e : List Nat, e.Perm (List.range n) → invCount e + 1 = L → e ∈ check)
    (hs : BuildState n L (L+1) amb s)
    (hw : wordProd w n = old) (hwlen : w.length = L) (hwg : ∀ g ∈ w, 1 ≤ g ∧ g < n)
    (hold : old.Perm (List.range n)) (holdinv : invCount old = L)
    (hi1 : 1 ≤ i) (hin : i < n) :
    BuildState n L (L+1) amb (buildInsert n L check w s i) ∧
    (∀ r ∈ s.lengths, r ∈ (buildInsert n L check w s i).lengths) ∧
    (∀ r ∈ s.words, r ∈ (buildInsert n L check w s i).words) ∧
    (swapValues (i-1) old ∉ check →
      (swapValues (i-1) old, n, L+1) ∈ (buildInsert n L check w s i).lengths) := by
  have hmin : min n alphaLen = n := by
    unfold alphaLen
    omega
  have hieq : i - 1 + 1 = i := by omega
  have hne_eq : wordProd (w ++ [i]) n = swapValues (i-1) old := by
    rw [wordProd_append_gen w n hi1 (by omega), hw]
  unfold buildInsert
  simp only
  by_cases hmem : wordProd (w ++ [i]) n ∈ check
  · rw [if_pos hmem]
    refine ⟨hs, fun r hr => hr, fun r hr => hr, fun hnc => ?_⟩
    rw [← hne_eq] at hnc
    exact absurd hmem hnc
  · rw [if_neg hmem]
    set ne := wordProd (w ++ [i]) n with hne_def
    have hneperm : ne.Perm (List.range n) := by
      rw [hne_eq]
      exact swapValues_perm_range hold (by omega)
    have hneinv : invCount ne = L + 1 := by
      rcases invCount_swapValues_of_perm hold (v := i - 1) (by omega) with ⟨_, h⟩ | ⟨_, h⟩
      · rw [hne_eq, h, holdinv]
      · exfalso
        apply hmem
        apply hc2 _ hneperm
        rw [hne_eq]
        omega
    have hnelen : ne.length = n := perm_range_length hneperm
    have hlw : (insertLength s ne n (L+1)).words = s.words := insertLength_words _ _ _ _
    have hwl : (insertWord (insertLength s ne n (L+1)) ne n (w ++ [i])).lengths
        = (insertLength s ne n (L+1)).lengths := insertWord_lengths _ _ _ _
    have hmonoL : ∀ r ∈ s.lengths,
        r ∈ (insertWord (insertLength s ne n (L+1)) ne n (w ++ [i])).lengths := by
      intro r hr
      rw [hwl]
      exact insertLength_mem_mono hr
    have hmonoW : ∀ r ∈ s.words,
        r ∈ (insertWord (insertLength s ne n (L+1)) ne n (w ++ [i])).words := by
      intro r hr
      apply insertWord_mem_mono
      rw [hlw]
      exact hr
    have hLcases : ∀ r ∈ (insertWord (insertLength s ne n (L+1)) ne n (w ++ [i])).lengths,
        r ∈ s.lengths ∨ r = (ne, n, L+1) := by
      intro r hr
      rw [hwl] at hr
      exact insertLength_mem_cases hr
    have hWcases : ∀ r ∈ (insertWord (insertLength s ne n (L+1)) ne n (w ++ [i])).words,
        r ∈ s.words ∨ r = (ne, n, w ++ [i]) := by
      intro r hr
      rcases insertWord_mem_cases hr with h | h
      · rw [hlw] at h
        exact Or.inl h
      · exact Or.inr h
    have hkeyL : ∃ r ∈ (insertWord (insertLength s ne n (L+1)) ne n (w ++ [i])).lengths,
        r.1 = ne := by
      rw [hwl]
      exact insertLength_key_present
    have hrow : (ne, n, L+1) ∈ (insertWord (insertLength s ne n (L+1)) ne n (w ++ [i])).lengths := by
      rcases hkeyL with ⟨r, hr, hre⟩
      rcases hLcases r hr with hrs | hreq
      · rcases hs.new_len r hrs with hra | ⟨h1, h2, h3, _⟩
        · exfalso
          exact (hamb.len_sep r hra).2 (by rw [hre, hnelen])
        · obtain ⟨e0, m0, l0⟩ := r
          simp only at hre h1 h2 h3
          subst hre h1
          rw [h3, hneinv] at hr
          exact hr
      · rw [← hreq]
        exact hr
    refine ⟨⟨?_, ?_, ?_, ?_, ?_, ?_, ?_, ?_⟩, hmonoL, hmonoW, fun _ => by rw [← hne_eq]; exact hrow⟩
    · intro r hr
      exact hmonoL r (hs.amb_len r hr)
    · intro r hr
      exact hmonoW r (hs.amb_word r hr)
    · intro r hr
      rcases hLcases r hr with h | h
      · exact hs.new_len r h
      · right
        rw [h]
        exact ⟨rfl, hneperm, by simpa using hneinv.symm, by simpa using Nat.le_of_eq hneinv⟩
    · intro r hr
      rcases hWcases r hr with h | h
      · exact hs.new_word r h
      · right
        rw [h]
        refine ⟨rfl, rfl, ?_, ?_, ?_⟩
        · simp only
          rw [hneinv, List.length_append, hwlen]
          rfl
        · simp only
          omega
        · intro g hg
          rcases List.mem_append.mp hg with h' | h'
          · exact hwg g h'
          · have : g = i := by simpa using h'
            omega
    · intro e he hle
      exact hmonoL _ (hs.complete e he hle)
    · rw [hwl]
      exact insertLength_nodup hs.len_nodup
    · apply insertWord_nodup
      rw [hlw]
      exact hs.word_nodup
    · intro r hr hra
      rcases hLcases r hr with h | h
      · rcases hs.witness r h hra with ⟨w', hw'⟩
        exact ⟨w', hmonoW _ hw'⟩
      · refine ⟨w ++ [i], ?_⟩
        rcases insertWord_key_present
          (s := insertLength s ne n (L+1)) (e := ne) (n := n) (w := w ++ [i])
          with ⟨r', hr', hrw', hrn'⟩
        rcases hWcases r' hr' with h' | h'
        · rcases hs.new_word r' h' with h'' | ⟨_, h2, _, _, _⟩
          · exact absurd hrn' (fun hh => (hamb.word_sep r' h'').elim (hh ▸ rfl))
          · obtain ⟨e0, m0, w0⟩ := r'
            simp only at hrw' hrn' h2
            rw [hrw'] at h2
            rw [← hne_def] at h2
            rw [h]
            show (ne, n, w ++ [i]) ∈ _
            have htup : (ne, n, w ++ [i]) = (e0, m0, w0) := by
              rw [h2, ← hrn', ← hrw']
            rw [htup]
            exact hr'
        · rw [h]
          rw [h'] at hr'
          exact hr'

theorem processWordAux_spec {n L : Nat} {check : List (List Nat)} {amb : Store}
    {w old : List Nat}
    (hn26 : n ≤ 26) (hamb : AmbOK n amb)
    (hc2 : ∀ e : List Nat, e.Perm (List.range n) → invCount e + 1 = L → e ∈ check)
    (hw : wordProd w n = old) (hwlen : w.length = L) (hwg : ∀ g ∈ w, 1 ≤ g ∧ g < n)
    (hold : old.Perm (List.range n)) (holdinv : invCount old = L) :
    ∀ (gs : List Nat) (s : Store), (∀ i ∈ gs, 1 ≤ i ∧ i < n) →
    BuildState n L (L+1) amb s →
    BuildState n L (L+1) amb (gs.foldl (buildInsert n L check w) s) ∧
    (∀ r ∈ s.lengths, r ∈ (gs.foldl (buildInsert n L check w) s).lengths) ∧
    (∀ r ∈ s.words, r ∈ (gs.foldl (buildInsert n L check w) s).words) ∧
    (∀ i ∈ gs, swapValues (i-1) old ∉ check →
      (swapValues (i-1) old, n, L+1) ∈ (gs.foldl (buildInsert n L check w) s).lengths) := by
  intro gs
  induction gs with
  | nil =>
    intro s _ hs
    exact ⟨hs, fun r hr => hr, fun r hr => hr, by simp⟩
  | cons i gs ih =>
    intro s hgs hs
    rcases hgs i (List.mem_cons_self i gs) with ⟨hi1, hin⟩
    rcases buildInsert_spec hn26 hamb hc2 hs hw hwlen hwg hold holdinv hi1 hin
      with ⟨hs1, hmL1, hmW1, heff1⟩
    rcases ih (buildInsert n L check w s i) (fun j hj => hgs j (List.mem_cons_of_mem i hj)) hs1
      with ⟨hs2, hmL2, hmW2, heff2⟩
    rw [List.foldl_cons]
    refine ⟨hs2, fun r hr => hmL2 r (hmL1 r hr), fun r hr => hmW2 r (hmW1 r hr), ?_⟩
    intro j hj hnc
    rcases List.mem_cons.mp hj with rfl | hj
    · exact hmL2 _ (heff1 hnc)
    · exact heff2 j hj hnc

theorem processWord_spec {n L : Nat} {check : List (List Nat)} {amb s : Store}
    {w old : List Nat}
    (hn1 : 1 ≤ n) (hn26 : n ≤ 26) (hamb : AmbOK n amb)
    (hc2 : ∀ e : List Nat, e.Perm (List.range n) → invCount e + 1 = L → e ∈ check)
    (hs : BuildState n L (L+1) amb s)
    (hw : wordProd w n = old) (hwlen : w.length = L) (hwg : ∀ g ∈ w, 1 ≤ g ∧ g < n)
    (hold : old.Perm (List.range n)) (holdinv : invCount old = L) :
    BuildState n L (L+1) amb (processWord n L check w s) ∧
    (∀ r ∈ s.lengths, r ∈ (processWord n L check w s).lengths) ∧
    (∀ r ∈ s.words, r ∈ (processWord n L check w s).words) ∧
    (∀ v, v + 1 < n → swapValues v old ∉ check →
      (swapValues v old, n, L+1) ∈ (processWord n L check w s).lengths) := by
  have hb : ∀ i ∈ List.range' 1 (n-1), 1 ≤ i ∧ i < n := by
    intro i hi
    rcases List.mem_range'_1.mp hi with ⟨h1, h2⟩
    omega
  rcases processWordAux_spec hn26 hamb hc2 hw hwlen hwg hold holdinv
    (List.range' 1 (n-1)) s hb hs with ⟨h1, h2, h3, h4⟩
  refine ⟨h1, h2, h3, ?_⟩
  intro v hv hnc
  have hmem : v + 1 ∈ List.range' 1 (n-1) := List.mem_range'_1.mpr ⟨by omega, by omega⟩
  have := h4 (v+1) hmem (by simpa using hnc)
  simpa using this

theorem processElem_spec {n L : Nat} {check : List (List Nat)} {amb s : Store}
    {old : List Nat}
    (hn1 : 1 ≤ n) (hn26 : n ≤ 26) (hamb : AmbOK n amb)
    (hc2 : ∀ e : List Nat, e.Perm (List.range n) → invCount e + 1 = L → e ∈ check)
    (hs : BuildState n L (L+1) amb s)
    (hrow : (old, n, L) ∈ s.lengths)
    (hold : old.Perm (List.range n)) (holdinv : invCount old = L) :
    BuildState n L (L+1) amb (processElem n L check old s) ∧
    (∀ r ∈ s.lengths, r ∈ (processElem n L check old s).lengths) ∧
    (∀ r ∈ s.words, r ∈ (processElem n L check old s).words) ∧
    (∀ v, v + 1 < n → swapValues v old ∉ check →
      (swapValues v old, n, L+1) ∈ (processElem n L check old s).lengths) := by
  have hwprops : ∀ w ∈ wordsOf s n old, wordProd w n = old ∧ w.length = L ∧
      ∀ g ∈ w, 1 ≤ g ∧ g < n := by
    intro w hwmem
    unfold wordsOf at hwmem
    rcases List.mem_map.mp hwmem with ⟨r, hr, hrw⟩
    rcases List.mem_filter.mp hr with ⟨hrs, hrcond⟩
    have hcond := of_decide_eq_true hrcond
    rcases hs.new_word r hrs with hra | ⟨_, hwp, hwl, _, hwgs⟩
    · exact absurd hcond.1 (hamb.word_sep r hra)
    · rw [hrw] at hwp hwl hwgs
      rw [hcond.2] at hwp hwl
      exact ⟨hwp, by rw [hwl, holdinv], hwgs⟩
  have hne : wordsOf s n old ≠ [] := by
    have hnamb : (old, n, L) ∉ amb.lengths := by
      intro hmem
      exact (hamb.len_sep _ hmem).1 rfl
    rcases hs.witness _ hrow hnamb with ⟨w', hw'⟩
    intro hnil
    have : w' ∈ wordsOf s n old := by
      unfold wordsOf
      apply List.mem_map.mpr
      refine ⟨(old, n, w'), ?_, rfl⟩
      apply List.mem_filter.mpr
      exact ⟨hw', by simp⟩
    rw [hnil] at this
    cases this
  unfold processElem
  have haux : ∀ (ws : List (List Nat)) (s' : Store),
      (∀ w ∈ ws, wordProd w n = old ∧ w.length = L ∧ ∀ g ∈ w, 1 ≤ g ∧ g < n) →
      BuildState n L (L+1) amb s' →
      BuildState n L (L+1) amb (ws.foldl (fun s w => processWord n L check w s) s') ∧
      (∀ r ∈ s'.lengths, r ∈ (ws.foldl (fun s w => processWord n L check w s) s').lengths) ∧
      (∀ r ∈ s'.words, r ∈ (ws.foldl (fun s w => processWord n L check w s) s').words) := by
    intro ws
    induction ws with
    | nil => intro s' _ hs'; exact ⟨hs', fun r hr => hr, fun r hr => hr⟩
    | cons w ws ih =>
      intro s' hps hs'
      rcases hps w (List.mem_cons_self w ws) with ⟨hp1, hp2, hp3⟩
      rcases processWord_spec hn1 hn26 hamb hc2 hs' hp1 hp2 hp3 hold holdinv
        with ⟨h1, h2, h3, _⟩
      rcases ih (processWord n L check w s') (fun u hu => hps u (List.mem_cons_of_mem w hu)) h1
        with ⟨h4, h5, h6⟩
      exact ⟨h4, fun r hr => h5 r (h2 r hr), fun r hr => h6 r (h3 r hr)⟩
  match hws : wordsOf s n old, hne with
  | w₀ :: ws, _ =>
    rcases hwprops w₀ (by rw [hws]; exact List.mem_cons_self w₀ ws) with ⟨hp1, hp2, hp3⟩
    rcases processWord_spec hn1 hn26 hamb hc2 hs hp1 hp2 hp3 hold holdinv
      with ⟨h1, h2, h3, heff⟩
    rcases haux ws (processWord n L check w₀ s)
      (fun u hu => hwprops u (by rw [hws]; exact List.mem_cons_of_mem w₀ hu)) h1
      with ⟨h4, h5, h6⟩
    rw [List.foldl_cons]
    refine ⟨h4, fun r hr => h5 r (h2 r hr), fun r hr => h6 r (h3 r hr), ?_⟩
    intro v hv hnc
    exact h5 _ (heff v hv hnc)

theorem buildState_weaken {n lo hi hi' : Nat} {amb s : Store}
    (h : BuildState n lo hi amb s) (hle : hi ≤ hi') : BuildState n lo hi' amb s := by
  refine ⟨h.amb_len, h.amb_word, ?_, ?_, h.complete, h.len_nodup, h.word_nodup, h.witness⟩
  · intro r hr
    rcases h.new_len r hr with h' | ⟨h1, h2, h3, h4⟩
    · exact Or.inl h'
    · exact Or.inr ⟨h1, h2, h3, by omega⟩
  · intro r hr
    rcases h.new_word r hr with h' | ⟨h1, h2, h3, h4, h5⟩
    · exact Or.inl h'
    · exact Or.inr ⟨h1, h2, h3, by omega, h5⟩

theorem elemsAt_mem {s : Store} {n L : Nat} {e : List Nat} :
    e ∈ elemsAt s n L ↔ (e, n, L) ∈ s.lengths ∨
      ∃ r ∈ s.lengths, r.1 = e ∧ r.2.1 = n ∧ r.2.2 = L := by
  constructor
  · intro h
    unfold elemsAt at h
    rcases List.mem_map.mp h with ⟨r, hr, hre⟩
    rcases List.mem_filter.mp hr with ⟨hrs, hrc⟩
    have hc := of_decide_eq_true hrc
    exact Or.inr ⟨r, hrs, hre, hc.1, hc.2⟩
  · intro h
    unfold elemsAt
    apply List.mem_map.mpr
    rcases h with h | ⟨r, hr, h1, h2, h3⟩
    · exact ⟨(e, n, L), List.mem_filter.mpr ⟨h, by simp⟩, rfl⟩
    · exact ⟨r, List.mem_filter.mpr ⟨hr, by simp [h2, h3]⟩, h1⟩


theorem processElemFold_spec {n L : Nat} {check : List (List Nat)} {amb : Store}
    (hn1 : 1 ≤ n) (hn26 : n ≤ 26) (hamb : AmbOK n amb)
    (hc2 : ∀ e : List Nat, e.Perm (List.range n) → invCount e + 1 = L → e ∈ check) :
    ∀ (bs : List (List Nat)) (s : Store),
    (∀ old ∈ bs, old.Perm (List.range n) ∧ invCount old = L ∧ (old, n, L) ∈ s.lengths) →
    BuildState n L (L+1) amb s →
    BuildState n L (L+1) amb (bs.foldl (fun s old => processElem n L check old s) s) ∧
    (∀ r ∈ s.lengths, r ∈ (bs.foldl (fun s old => processElem n L check old s) s).lengths) ∧
    (∀ r ∈ s.words, r ∈ (bs.foldl (fun s old => processElem n L check old s) s).words) ∧
    (∀ old ∈ bs, ∀ v, v + 1 < n → swapValues v old ∉ check →
      (swapValues v old, n, L+1) ∈ (bs.foldl (fun s old => processElem n L check old s) s).lengths) := by
  intro bs
  induction bs with
  | nil =>
    intro s _ hs
    exact ⟨hs, fun r hr => hr, fun r hr => hr, by simp⟩
  | cons old bs ih =>
    intro s hrows hs
    rcases hrows old (List.mem_cons_self old bs) with ⟨hp, hinv, hrow⟩
    rcases processElem_spec hn1 hn26 hamb hc2 hs hrow hp hinv with ⟨h1, h2, h3, heff⟩
    rcases ih (processElem n L check old s)
      (fun o ho => by
        rcases hrows o (List.mem_cons_of_mem old ho) with ⟨q1, q2, q3⟩
        exact ⟨q1, q2, h2 _ q3⟩) h1
      with ⟨h4, h5, h6, heff2⟩
    rw [List.foldl_cons]
    refine ⟨h4, fun r hr => h5 r (h2 r hr), fun r hr => h6 r (h3 r hr), ?_⟩
    intro o ho v hv hnc
    rcases List.mem_cons.mp ho with rfl | ho
    · exact h5 _ (heff v hv hnc)
    · exact heff2 o ho v hv hnc

theorem processLayer_spec {n L : Nat} {amb s : Store}
    (hn1 : 1 ≤ n) (hn26 : n ≤ 26) (hamb : AmbOK n amb)
    (hs : BuildState n L L amb s) :
    BuildState n (L+1) (L+1) amb (processLayer n L s) ∧
    (∀ r ∈ s.lengths, r ∈ (processLayer n L s).lengths) ∧
    (∀ r ∈ s.words, r ∈ (processLayer n L s).words) := by
  have hrow_props : ∀ r ∈ s.lengths, r.2.1 = n →
      r.1.Perm (List.range n) ∧ r.2.2 = invCount r.1 := by
    intro r hr hrn
    rcases hs.new_len r hr with hra | ⟨_, h2, h3, _⟩
    · exact absurd hrn (hamb.len_sep r hra).1
    · exact ⟨h2, h3⟩
  have hc1 : ∀ e ∈ (if L = 0 then [] else elemsAt s n (L-1)),
      e.Perm (List.range n) ∧ invCount e + 1 = L := by
    intro e he
    by_cases hL : L = 0
    · rw [hL] at he
      simp at he
    · rw [if_neg hL] at he
      rcases elemsAt_mem.mp he with h | ⟨r, hr, h1, h2, h3⟩
      · rcases hrow_props _ h rfl with ⟨hp, hi⟩
        simp only at hp hi
        refine ⟨hp, by omega⟩
      · rcases hrow_props r hr h2 with ⟨hp, hi⟩
        rw [h1] at hp hi
        refine ⟨hp, by omega⟩
  have hc2 : ∀ e : List Nat, e.Perm (List.range n) → invCount e + 1 = L →
      e ∈ (if L = 0 then [] else elemsAt s n (L-1)) := by
    intro e he hinv
    have hL : ¬ L = 0 := by omega
    rw [if_neg hL]
    apply elemsAt_mem.mpr
    apply Or.inl
    have hcomp := hs.complete e he (by omega)
    have heq : invCount e = L - 1 := by omega
    rw [heq] at hcomp
    exact hcomp
  have hbuild1 : ∀ old ∈ elemsAt s n L, old.Perm (List.range n) ∧ invCount old = L ∧
      (old, n, L) ∈ s.lengths := by
    intro old ho
    rcases elemsAt_mem.mp ho with h | ⟨r, hr, h1, h2, h3⟩
    · rcases hrow_props _ h rfl with ⟨hp, hi⟩
      simp only at hp hi
      exact ⟨hp, hi.symm, h⟩
    · rcases hrow_props r hr h2 with ⟨hp, hi⟩
      rw [h1] at hp hi
      refine ⟨hp, by omega, ?_⟩
      obtain ⟨e0, m0, l0⟩ := r
      simp only at h1 h2 h3
      rw [← h1, ← h2, ← h3]
      exact hr
  have hbuild2 : ∀ e : List Nat, e.Perm (List.range n) → invCount e = L →
      e ∈ elemsAt s n L := by
    intro e he hinv
    apply elemsAt_mem.mpr
    apply Or.inl
    have hcomp := hs.complete e he (by omega)
    rw [hinv] at hcomp
    exact hcomp
  rcases processElemFold_spec hn1 hn26 hamb hc2 (elemsAt s n L) s hbuild1
    (buildState_weaken hs (by omega)) with ⟨h1, h2, h3, heff⟩
  have hgoal : processLayer n L s =
      (elemsAt s n L).foldl
        (fun s' old => processElem n L (if L = 0 then [] else elemsAt s n (L-1)) old s') s := rfl
  rw [hgoal]
  refine ⟨⟨h1.amb_len, h1.amb_word, h1.new_len, h1.new_word, ?_, h1.len_nodup,
    h1.word_nodup, h1.witness⟩, h2, h3⟩
  intro e he hle
  by_cases hcase : invCount e ≤ L
  · exact h2 _ (hs.complete e he hcase)
  · have hinv : invCount e = L + 1 := by omega
    have hne : e ≠ List.range n := by
      intro hcontra
      rw [hcontra, invCount_range] at hinv
      omega
    rcases exists_lowering_swap he hne with ⟨v, hv, hlow⟩
    have holdperm : (swapValues v e).Perm (List.range n) := swapValues_perm_range he hv
    have holdinv : invCount (swapValues v e) = L := by omega
    have hmem : swapValues v e ∈ elemsAt s n L := hbuild2 _ holdperm holdinv
    have hswap : swapValues v (swapValues v e) = e := swapValues_swapValues v e
    have hnc : swapValues v (swapValues v e) ∉ (if L = 0 then [] else elemsAt s n (L-1)) := by
      rw [hswap]
      intro hmem'
      rcases hc1 e hmem' with ⟨_, hcontra⟩
      omega
    have := heff _ hmem v hv hnc
    rw [hswap] at this
    rw [hinv]
    exact this

theorem buildLayersAux_spec {n : Nat} {amb s : Store}
    (hn1 : 1 ≤ n) (hn26 : n ≤ 26) (hamb : AmbOK n amb)
    (hs : BuildState n 0 0 amb s) :
    ∀ d : Nat,
    BuildState n d d amb ((List.range d).foldl (fun s L => processLayer n L s) s) ∧
    (∀ r ∈ s.lengths, r ∈ ((List.range d).foldl (fun s L => processLayer n L s) s).lengths) ∧
    (∀ r ∈ s.words, r ∈ ((List.range d).foldl (fun s L => processLayer n L s) s).words) := by
  intro d
  induction d with
  | zero => exact ⟨hs, fun r hr => hr, fun r hr => hr⟩
  | succ d ih =>
    rcases ih with ⟨h1, h2, h3⟩
    rw [List.range_succ, List.foldl_append]
    rcases processLayer_spec hn1 hn26 hamb h1 with ⟨h4, h5, h6⟩
    exact ⟨h4, fun r hr => h5 r (h2 r hr), fun r hr => h6 r (h3 r hr)⟩

theorem dimOf_eq (n : Nat) : dimOf n = n * (n - 1) / 2 := by
  unfold dimOf
  induction n with
  | zero => rfl
  | succ d ih =>
    rw [List.range_succ, List.sum_append, ih]
    simp only [List.sum_cons, List.sum_nil, Nat.add_sub_cancel]
    rw [tri_succ d]
    omega

theorem create_element_cache_spec {n : Nat} {s : Store}
    (hn1 : 1 ≤ n) (hn26 : n ≤ 26) (hamb : AmbOK n s)
    (hnodupL : (s.lengths.map (fun r => r.1)).Nodup)
    (hnodupW : (s.words.map (fun r => (r.2.1, r.2.2))).Nodup) :
    ∃ s', create_element_cache n s = .ok (true, s') ∧
      BuildState n (dimOf n) (dimOf n) s s' := by
  have hbase : baseArrangement n = List.range n := baseArrangement_eq hn26
  have hbaselen : (baseArrangement n).length = n := by
    rw [hbase]
    exact List.length_range n
  have hnc1 : ¬ s.lengths.any (fun r => decide (r.1 = baseArrangement n)) = true := by
    intro h
    rcases List.any_eq_true.mp h with ⟨r, hr, hre⟩
    have := of_decide_eq_true hre
    exact (hamb.len_sep r hr).2 (by rw [this, hbaselen])
  have hnc2 : ¬ s.words.any
      (fun r => decide (r.2.2 = ([] : List Nat) ∧ r.2.1 = n)) = true := by
    intro h
    rcases List.any_eq_true.mp h with ⟨r, hr, hre⟩
    have := of_decide_eq_true hre
    exact (hamb.word_sep r hr) this.2
  have hs1L : (insertWord (insertLength s (baseArrangement n) n 0) (baseArrangement n) n
      []).lengths = s.lengths ++ [(baseArrangement n, n, 0)] := by
    rw [insertWord_lengths]
    unfold insertLength
    rw [if_neg hnc1]
  have hs1W : (insertWord (insertLength s (baseArrangement n) n 0) (baseArrangement n) n
      []).words = s.words ++ [(baseArrangement n, n, [])] := by
    unfold insertWord
    rw [insertLength_words, if_neg hnc2]
  set s1 := insertWord (insertLength s (baseArrangement n) n 0) (baseArrangement n) n []
    with hs1_def
  have hinvbase : invCount (baseArrangement n) = 0 := invCount_base n
  have hseed : BuildState n 0 0 s s1 := by
    refine ⟨?_, ?_, ?_, ?_, ?_, ?_, ?_, ?_⟩
    · intro r hr
      rw [hs1L]
      exact List.mem_append_left _ hr
    · intro r hr
      rw [hs1W]
      exact List.mem_append_left _ hr
    · intro r hr
      rw [hs1L] at hr
      rcases List.mem_append.mp hr with h | h
      · exact Or.inl h
      · right
        have : r = (baseArrangement n, n, 0) := by simpa using h
        rw [this]
        refine ⟨rfl, ?_, ?_, ?_⟩
        · rw [hbase]
        · simpa using hinvbase.symm
        · simpa using Nat.le_of_eq hinvbase
    · intro r hr
      rw [hs1W] at hr
      rcases List.mem_append.mp hr with h | h
      · exact Or.inl h
      · right
        have : r = (baseArrangement n, n, []) := by simpa using h
        rw [this]
        exact ⟨rfl, rfl, by simpa using hinvbase.symm, by simpa using Nat.le_of_eq hinvbase,
          by simp⟩
    · intro e he hle
      have hinv : invCount e = 0 := by omega
      have : e = List.range n := eq_range_of_invCount_zero he hinv
      rw [hs1L, hinv, this, ← hbase]
      exact List.mem_append_right _ (List.mem_singleton.mpr rfl)
    · rw [hs1_def]
      rw [show (insertWord (insertLength s (baseArrangement n) n 0) (baseArrangement n) n
        []).lengths = (insertLength s (baseArrangement n) n 0).lengths from
        insertWord_lengths _ _ _ _]
      exact insertLength_nodup hnodupL
    · rw [hs1_def]
      apply insertWord_nodup
      rw [insertLength_words]
      exact hnodupW
    · intro r hr hra
      rw [hs1L] at hr
      rcases List.mem_append.mp hr with h | h
      · exact absurd h hra
      · have : r = (baseArrangement n, n, 0) := by simpa using h
        refine ⟨[], ?_⟩
        rw [this, hs1W]
        exact List.mem_append_right _ (List.mem_singleton.mpr rfl)
  rcases buildLayersAux_spec hn1 hn26 hamb hseed (dimOf n) with ⟨hfinal, _, _⟩
  refine ⟨buildLayers n s1, ?_, hfinal⟩
  unfold create_element_cache
  rw [if_neg (by omega), if_neg (by omega)]
  rw [if_neg (by rw [Bool.or_eq_true]; push_neg; exact ⟨hnc1, hnc2⟩)]

/-! Facts about a completely built cache slice. -/

theorem buildState_complete_all {n : Nat} {amb s' : Store}
    (h : BuildState n (dimOf n) (dimOf n) amb s') {e : List Nat}
    (he : e.Perm (List.range n)) : (e, n, invCount e) ∈ s'.lengths := by
  apply h.complete e he
  have h1 := invCount_le_tri e
  rw [perm_range_length he] at h1
  rw [dimOf_eq]
  exact h1

theorem lookupLen_built {s' : Store} {n : Nat} {e : List Nat}
    (hrow : (e, n, invCount e) ∈ s'.lengths)
    (hnodup : (s'.lengths.map (fun r => r.1)).Nodup) :
    lookupLen s' n e = some (invCount e) := by
  unfold lookupLen
  have hmem : (e, n, invCount e) ∈ s'.lengths.filter
      (fun r => decide (r.2.1 = n ∧ r.1 = e)) :=
    List.mem_filter.mpr ⟨hrow, by simp⟩
  cases hflc : s'.lengths.filter (fun r => decide (r.2.1 = n ∧ r.1 = e)) with
  | nil =>
    rw [hflc] at hmem
    cases hmem
  | cons r rest =>
    have hrmem : r ∈ s'.lengths.filter (fun r => decide (r.2.1 = n ∧ r.1 = e)) := by
      rw [hflc]
      exact List.mem_cons_self r rest
    have hrs : r ∈ s'.lengths := List.mem_of_mem_filter hrmem
    have hre : r.1 = e := (of_decide_eq_true (List.mem_filter.mp hrmem).2).2
    have hreq := List.inj_on_of_nodup_map hnodup hrs hrow (by rw [hre])
    simp only [List.map_cons, List.head?_cons]
    rw [hreq]

theorem singleton_of_nodup_keys {l : List (List Nat × Nat × Nat)} {x : List Nat × Nat × Nat}
    (hnodup : (l.map (fun r => r.1)).Nodup) (hmem : x ∈ l) (hall : ∀ a ∈ l, a = x) :
    l = [x] := by
  match l, hmem with
  | [a], _ =>
    rw [hall a (List.mem_singleton.mpr rfl)]
  | a :: b :: rest, _ =>
    exfalso
    rcases List.nodup_cons.mp hnodup with ⟨hna, _⟩
    apply hna
    apply List.mem_map.mpr
    refine ⟨b, List.mem_cons_self b rest, ?_⟩
    rw [hall a (List.mem_cons_self _ _), hall b (List.mem_cons_of_mem a (List.mem_cons_self b rest))]

/-- Global invariant of the store as maintained by the public operations: every
`Lengths` row is an arrangement of its own `n_value` with its true Coxeter
length, every recorded ambient size is completely recorded, every `Words` row
evaluates to its element with a minimal word over in-range generators, and
both primary keys are duplicate-free. -/
structure GoodStore (s : Store) : Prop where
  len_ok : ∀ r ∈ s.lengths, 1 ≤ r.2.1 ∧ r.2.1 ≤ 26 ∧ r.1.Perm (List.range r.2.1) ∧
      r.2.2 = invCount r.1
  len_nodup : (s.lengths.map (fun r => r.1)).Nodup
  len_complete : ∀ r ∈ s.lengths, ∀ e : List Nat, e.Perm (List.range r.2.1) →
      (e, r.2.1, invCount e) ∈ s.lengths
  word_ok : ∀ r ∈ s.words, 1 ≤ r.2.1 ∧ r.2.1 ≤ 26 ∧ wordProd r.2.2 r.2.1 = r.1 ∧
      r.2.2.length = invCount r.1 ∧ ∀ g ∈ r.2.2, 1 ≤ g ∧ g < r.2.1
  word_nodup : (s.words.map (fun r => (r.2.1, r.2.2))).Nodup
  word_elem : ∀ r ∈ s.words, (r.1, r.2.1, invCount r.1) ∈ s.lengths

theorem goodStore_empty : GoodStore emptyStore := by
  refine ⟨?_, ?_, ?_, ?_, ?_, ?_⟩ <;> simp [emptyStore]

theorem goodStore_ambOK {s : Store} {n : Nat} (hg : GoodStore s)
    (hnb : cacheHasLenZero s n = false) : AmbOK n s := by
  have hnone : ∀ r ∈ s.lengths, r.2.1 ≠ n := by
    intro r hr hrn
    rcases hg.len_ok r hr with ⟨_, _, hperm, _⟩
    have hrow := hg.len_complete r hr (List.range r.2.1) (List.Perm.refl _)
    rw [invCount_range] at hrow
    unfold cacheHasLenZero at hnb
    rw [Bool.not_eq_false'] at hnb
    have : s.lengths.filter (fun r => decide (r.2.1 = n ∧ r.2.2 = 0)) = [] :=
      List.isEmpty_iff.mp hnb
    have hmem : (List.range r.2.1, r.2.1, 0) ∈ s.lengths.filter
        (fun r => decide (r.2.1 = n ∧ r.2.2 = 0)) :=
      List.mem_filter.mpr ⟨hrow, by simp [hrn]⟩
    rw [this] at hmem
    cases hmem
  refine ⟨?_, ?_⟩
  · intro r hr
    refine ⟨hnone r hr, ?_⟩
    rcases hg.len_ok r hr with ⟨_, _, hperm, _⟩
    rw [perm_range_length hperm]
    exact hnone r hr
  · intro r hr
    have := hg.word_elem r hr
    exact hnone _ this

theorem wordProd_perm_range {w : List Nat} {n : Nat} (hn26 : n ≤ 26) :
    (wordProd w n).Perm (List.range n) := by
  have h := wordProd_perm_base w n
  rwa [baseArrangement_eq hn26] at h

theorem create_element_cache_already_built {s : Store} {n : Nat} (hg : GoodStore s)
    (hb : cacheHasLenZero s n = true) :
    create_element_cache n s = .ok (false, s) := by
  unfold cacheHasLenZero at hb
  rw [Bool.not_eq_true'] at hb
  have hne : s.lengths.filter (fun r => decide (r.2.1 = n ∧ r.2.2 = 0)) ≠ [] := by
    intro h
    rw [h] at hb
    cases hb
  cases hfl : s.lengths.filter (fun r => decide (r.2.1 = n ∧ r.2.2 = 0)) with
  | nil => exact absurd hfl hne
  | cons r rest =>
    have hrmem : r ∈ s.lengths.filter (fun r => decide (r.2.1 = n ∧ r.2.2 = 0)) := by
      rw [hfl]
      exact List.mem_cons_self r rest
    have hrs : r ∈ s.lengths := List.mem_of_mem_filter hrmem
    have hcond := of_decide_eq_true (List.mem_filter.mp hrmem).2
    rcases hg.len_ok r hrs with ⟨hm1, hm26, hperm, hinv⟩
    have hn1 : 1 ≤ n := by omega
    have hn26 : n ≤ 26 := by omega
    have hzero : invCount r.1 = 0 := by
      rw [← hinv, hcond.2]
    have hre : r.1 = List.range n := by
      rw [hcond.1] at hperm
      exact eq_range_of_invCount_zero hperm hzero
    unfold create_element_cache
    rw [if_neg (by omega), if_neg (by omega)]
    rw [if_pos]
    rw [Bool.or_eq_true]
    left
    apply List.any_eq_true.mpr
    refine ⟨r, hrs, ?_⟩
    rw [baseArrangement_eq hn26]
    simp [hre]

theorem create_element_cache_good {s : Store} {n : Nat} (hg : GoodStore s)
    (hnb : cacheHasLenZero s n = false) (hn1 : 1 ≤ n) (hn26 : n ≤ 26) :
    ∃ s', create_element_cache n s = .ok (true, s') ∧ GoodStore s' ∧
      (∀ r ∈ s.lengths, r ∈ s'.lengths) ∧ (∀ r ∈ s.words, r ∈ s'.words) ∧
      cacheHasLenZero s' n = true ∧
      (∀ e : List Nat, e.Perm (List.range n) → lookupLen s' n e = some (invCount e)) := by
  have hamb := goodStore_ambOK hg hnb
  rcases create_element_cache_spec hn1 hn26 hamb hg.len_nodup hg.word_nodup with ⟨s', hok, hbs⟩
  have hmonoL : ∀ r ∈ s.lengths, r ∈ s'.lengths := hbs.amb_len
  have hmonoW : ∀ r ∈ s.words, r ∈ s'.words := hbs.amb_word
  have hgood : GoodStore s' := by
    refine ⟨?_, hbs.len_nodup, ?_, ?_, hbs.word_nodup, ?_⟩
    · intro r hr
      rcases hbs.new_len r hr with h | ⟨h1, h2, h3, _⟩
      · exact hg.len_ok r h
      · rw [h1]
        exact ⟨hn1, hn26, h1 ▸ h2, h3⟩
    · intro r hr e he
      rcases hbs.new_len r hr with h | ⟨h1, _, _, _⟩
      · exact hmonoL _ (hg.len_complete r h e he)
      · rw [h1]
        rw [h1] at he
        exact buildState_complete_all hbs he
    · intro r hr
      rcases hbs.new_word r hr with h | ⟨h1, h2, h3, _, h5⟩
      · exact hg.word_ok r h
      · rw [h1]
        exact ⟨hn1, hn26, h1 ▸ h2, h3, h1 ▸ h5⟩
    · intro r hr
      rcases hbs.new_word r hr with h | ⟨h1, h2, _, _, _⟩
      · exact hmonoL _ (hg.word_elem r h)
      · rw [h1]
        apply buildState_complete_all hbs
        rw [← h2]
        exact wordProd_perm_range hn26
  have hrow0 : (List.range n, n, 0) ∈ s'.lengths := by
    have := buildState_complete_all hbs (List.Perm.refl (List.range n))
    rwa [invCount_range] at this
  have hbuilt : cacheHasLenZero s' n = true := by
    unfold cacheHasLenZero
    rw [Bool.not_eq_true']
    cases hfl : s'.lengths.filter (fun r => decide (r.2.1 = n ∧ r.2.2 = 0)) with
    | nil =>
      exfalso
      have hmem : (List.range n, n, 0) ∈ s'.lengths.filter
          (fun r => decide (r.2.1 = n ∧ r.2.2 = 0)) :=
        List.mem_filter.mpr ⟨hrow0, by simp⟩
      rw [hfl] at hmem
      cases hmem
    | cons r rest => rfl
  refine ⟨s', hok, hgood, hmonoL, hmonoW, hbuilt, ?_⟩
  intro e he
  exact lookupLen_built (buildState_complete_all hbs he) hbs.len_nodup

/-! Lemmas for the Demazure product engine. -/

theorem wordProd_append_zero (w : List Nat) (n : Nat) :
    wordProd (w ++ [0]) n = wordProd w n := by
  unfold wordProd
  rw [List.foldr_append]
  rfl

theorem skipZeros_decomp :
    ∀ (word : List Int), (∃ g ∈ word, g ≠ 0) →
    ∃ zs, word = zs ++ skipZeros word ∧ (∀ z ∈ zs, z = 0) ∧
      ∃ g rest, skipZeros word = g :: rest ∧ g ≠ 0 := by
  intro word
  induction word with
  | nil => intro h; simp at h
  | cons x xs ih =>
    intro h
    by_cases hx : x = 0
    · have hxs : ∃ g ∈ xs, g ≠ 0 := by
        rcases h with ⟨g, hg, hgne⟩
        rcases List.mem_cons.mp hg with rfl | hg
        · exact absurd hx hgne
        · exact ⟨g, hg, hgne⟩
      have hxs_ne : xs ≠ [] := by
        intro hnil
        rw [hnil] at hxs
        simp at hxs
      have hsz : skipZeros (x :: xs) = skipZeros xs := by
        cases xs with
        | nil => exact absurd rfl hxs_ne
        | cons y ys =>
          show (if x = 0 then skipZeros (y :: ys) else x :: y :: ys) = skipZeros (y :: ys)
          rw [if_pos hx]
      rcases ih hxs with ⟨zs, hdec, hz, g, rest, hsk, hgne⟩
      refine ⟨x :: zs, ?_, ?_, g, rest, by rw [hsz, hsk], hgne⟩
      · rw [hsz, List.cons_append, ← hdec]
      · intro z hz'
        rcases List.mem_cons.mp hz' with rfl | hz'
        · exact hx
        · exact hz z hz'
    · have hsz : skipZeros (x :: xs) = x :: xs := by
        cases xs with
        | nil => rfl
        | cons y ys =>
          show (if x = 0 then skipZeros (y :: ys) else x :: y :: ys) = x :: y :: ys
          rw [if_neg hx]
      exact ⟨[], by rw [hsz]; rfl, by simp, x, xs, hsz, hx⟩

theorem skipZeros_allzero :
    ∀ (word : List Int), word ≠ [] → (∀ g ∈ word, g = 0) → skipZeros word = [0] := by
  intro word
  induction word with
  | nil => intro h; exact absurd rfl h
  | cons x xs ih =>
    intro _ hz
    have hx : x = 0 := hz x (List.mem_cons_self x xs)
    cases xs with
    | nil => rw [show skipZeros [x] = [x] from rfl, hx]
    | cons y ys =>
      have : skipZeros (x :: y :: ys) = skipZeros (y :: ys) := by
        show (if x = 0 then skipZeros (y :: ys) else x :: y :: ys) = skipZeros (y :: ys)
        rw [if_pos hx]
      rw [this]
      exact ih (by simp) (fun g hg => hz g (List.mem_cons_of_mem x hg))

theorem heckeStep_zero (e : List Nat) : heckeStep e 0 = e := rfl

theorem heckeFoldl_zeros (zs : List Int) (e : List Nat) (hz : ∀ z ∈ zs, z = 0) :
    zs.foldl (fun e g => heckeStep e g.toNat) e = e := by
  induction zs with
  | nil => rfl
  | cons z zs ih =>
    rw [List.foldl_cons]
    have hz0 : z = 0 := hz z (List.mem_cons_self z zs)
    rw [hz0]
    exact ih (fun u hu => hz u (List.mem_cons_of_mem z hu))

theorem wordProdI_append_eq (pw : List Int) (i : Int) (n : Nat) (hn26 : n ≤ 26)
    (hin : i < (n : Int)) :
    wordProdI (pw ++ [i]) n =
      if i.toNat = 0 then wordProdI pw n
      else swapValues (i.toNat - 1) (wordProdI pw n) := by
  unfold wordProdI
  rw [List.map_append]
  simp only [List.map_cons, List.map_nil]
  by_cases h : i.toNat = 0
  · rw [if_pos h, h]
    exact wordProd_append_zero _ n
  · rw [if_neg h]
    apply wordProd_append_gen
    · omega
    · have hmin : min n alphaLen = n := by
        unfold alphaLen
        omega
      omega

theorem demStep_spec {s' : Store} {n : Nat} {pw : List Int} {i : Int}
    (hlook : ∀ e : List Nat, e.Perm (List.range n) → lookupLen s' n e = some (invCount e))
    (hn26 : n ≤ 26)
    (hpw : ∀ g ∈ pw, 0 ≤ g ∧ g < (n : Int))
    (hi0 : 0 ≤ i) (hin : i < (n : Int))
    (hne : pw ≠ [])
    (hlen : pw.length = invCount (wordProdI pw n)) :
    ∃ pw', demStep s' n pw i = .ok pw' ∧
      (∀ g ∈ pw', 0 ≤ g ∧ g < (n : Int)) ∧ pw' ≠ [] ∧
      wordProdI pw' n = heckeStep (wordProdI pw n) i.toNat ∧
      pw'.length = invCount (wordProdI pw' n) := by
  have hn26' : (n : Int) ≤ 26 := by exact_mod_cast hn26
  have hpw26 : ∀ g ∈ pw, 0 ≤ g ∧ g < (n : Int) ∧ g < 26 := by
    intro g hg
    rcases hpw g hg with ⟨h1, h2⟩
    exact ⟨h1, h2, by omega⟩
  have hpwi26 : ∀ g ∈ pw ++ [i], 0 ≤ g ∧ g < (n : Int) ∧ g < 26 := by
    intro g hg
    rcases List.mem_append.mp hg with hg | hg
    · exact hpw26 g hg
    · have : g = i := by simpa using hg
      subst this
      exact ⟨hi0, hin, by omega⟩
  have hok1 : standard_product pw n = .ok (wordProdI pw n) := standard_product_ok pw n hpw26
  have hok2 : standard_product (pw ++ [i]) n = .ok (wordProdI (pw ++ [i]) n) :=
    standard_product_ok (pw ++ [i]) n hpwi26
  have hperm1 : (wordProdI pw n).Perm (List.range n) := wordProd_perm_range hn26
  have hperm2 : (wordProdI (pw ++ [i]) n).Perm (List.range n) := wordProd_perm_range hn26
  have hl1 := hlook _ hperm1
  have hl2 := hlook _ hperm2
  have hstep : demStep s' n pw i = .ok
      (if invCount (wordProdI pw n) < invCount (wordProdI (pw ++ [i]) n)
       then pw ++ [i] else pw) := by
    unfold demStep
    rw [hok1]
    show (match lookupLen s' n (wordProdI pw n) with
      | none => Except.error PyErr.indexError
      | some oldL => do
        let newE ← standard_product (pw ++ [i]) n
        match lookupLen s' n newE with
        | none => Except.error PyErr.indexError
        | some newL => Except.ok (if oldL < newL then pw ++ [i] else pw)) = _
    rw [hl1]
    show (do
      let newE ← standard_product (pw ++ [i]) n
      match lookupLen s' n newE with
      | none => Except.error PyErr.indexError
      | some newL => Except.ok (if invCount (wordProdI pw n) < newL then pw ++ [i] else pw)) = _
    rw [hok2]
    show (match lookupLen s' n (wordProdI (pw ++ [i]) n) with
      | none => Except.error PyErr.indexError
      | some newL => Except.ok (if invCount (wordProdI pw n) < newL then pw ++ [i] else pw)) = _
    rw [hl2]
  rw [wordProdI_append_eq pw i n hn26 hin] at hstep
  by_cases hz : i.toNat = 0
  · rw [if_pos hz] at hstep
    rw [if_neg (by omega)] at hstep
    refine ⟨pw, hstep, hpw, hne, ?_, hlen⟩
    rw [hz, heckeStep_zero]
  · rw [if_neg hz] at hstep
    have hv : (i.toNat - 1) + 1 < n := by omega
    rcases invCount_swapValues_of_perm hperm1 hv with ⟨_, hup⟩ | ⟨_, hdown⟩
    · rw [if_pos (by omega)] at hstep
      refine ⟨pw ++ [i], hstep, fun g hg => (hpwi26 g hg).imp id (fun h => h.1), by simp, ?_, ?_⟩
      · rw [wordProdI_append_eq pw i n hn26 hin, if_neg hz]
        unfold heckeStep
        rw [if_neg hz, if_pos (by omega)]
      · rw [wordProdI_append_eq pw i n hn26 hin, if_neg hz, hup, List.length_append, hlen]
        rfl
    · rw [if_neg (by omega)] at hstep
      refine ⟨pw, hstep, hpw, hne, ?_, hlen⟩
      unfold heckeStep
      rw [if_neg hz, if_neg (by omega)]

theorem demStepFold_spec {s' : Store} {n : Nat}
    (hlook : ∀ e : List Nat, e.Perm (List.range n) → lookupLen s' n e = some (invCount e))
    (hn26 : n ≤ 26) :
    ∀ (rest : List Int) (pw : List Int),
    (∀ g ∈ rest, 0 ≤ g ∧ g < (n : Int)) →
    (∀ g ∈ pw, 0 ≤ g ∧ g < (n : Int)) → pw ≠ [] →
    pw.length = invCount (wordProdI pw n) →
    ∃ pw', rest.foldlM (fun pw i => demStep s' n pw i) pw = .ok pw' ∧
      (∀ g ∈ pw', 0 ≤ g ∧ g < (n : Int)) ∧ pw' ≠ [] ∧
      wordProdI pw' n = rest.foldl (fun e g => heckeStep e g.toNat) (wordProdI pw n) ∧
      pw'.length = invCount (wordProdI pw' n) := by
  intro rest
  induction rest with
  | nil =>
    intro pw _ hpw hne hlen
    exact ⟨pw, rfl, hpw, hne, rfl, hlen⟩
  | cons i rest ih =>
    intro pw hrest hpw hne hlen
    rcases hrest i (List.mem_cons_self i rest) with ⟨hi0, hin⟩
    rcases demStep_spec hlook hn26 hpw hi0 hin hne hlen with ⟨pw1, hstep, hp1, hp2, hp3, hp4⟩
    rcases ih pw1 (fun g hg => hrest g (List.mem_cons_of_mem i hg)) hp1 hp2 hp4
      with ⟨pw', hfold, hq1, hq2, hq3, hq4⟩
    refine ⟨pw', ?_, hq1, hq2, ?_, hq4⟩
    · rw [List.foldlM_cons, hstep]
      simpa using hfold
    · rw [List.foldl_cons, ← hp3, hq3]

theorem demazure_product_spec {word : List Int} {n : Nat} {s : Store}
    (hg : GoodStore s) (hn1 : 1 ≤ n) (hn26 : n ≤ 26)
    (hgens : ∀ g ∈ word, 0 ≤ g ∧ g < (n : Int))
    (hnz : ∃ g ∈ word, g ≠ 0) :
    ∃ s' pw, demazure_product word n s = .ok (s', DemRes.word pw) ∧ GoodStore s' ∧
      (∀ r ∈ s.lengths, r ∈ s'.lengths) ∧ (∀ r ∈ s.words, r ∈ s'.words) ∧
      (∀ g ∈ pw, 0 ≤ g ∧ g < (n : Int)) ∧ pw ≠ [] ∧
      wordProdI pw n = heckeFold word n ∧
      pw.length = invCount (heckeFold word n) := by
  have hex : ∃ s2, (ensureCache n s = .ok s2) ∧ GoodStore s2 ∧
      (∀ r ∈ s.lengths, r ∈ s2.lengths) ∧ (∀ r ∈ s.words, r ∈ s2.words) ∧
      (∀ e : List Nat, e.Perm (List.range n) → lookupLen s2 n e = some (invCount e)) := by
    cases hb : cacheHasLenZero s n with
    | true =>
      refine ⟨s, by unfold ensureCache; rw [hb]; rfl, hg, fun r hr => hr, fun r hr => hr, ?_⟩
      intro e he
      unfold cacheHasLenZero at hb
      rw [Bool.not_eq_true'] at hb
      have hne : s.lengths.filter (fun r => decide (r.2.1 = n ∧ r.2.2 = 0)) ≠ [] := by
        intro h
        rw [h] at hb
        cases hb
      cases hfl : s.lengths.filter (fun r => decide (r.2.1 = n ∧ r.2.2 = 0)) with
      | nil => exact absurd hfl hne
      | cons r rest =>
        have hrmem : r ∈ s.lengths.filter (fun r => decide (r.2.1 = n ∧ r.2.2 = 0)) := by
          rw [hfl]
          exact List.mem_cons_self r rest
        have hrs : r ∈ s.lengths := List.mem_of_mem_filter hrmem
        have hcond := of_decide_eq_true (List.mem_filter.mp hrmem).2
        have hrow := hg.len_complete r hrs e (by rw [hcond.1]; exact he)
        rw [hcond.1] at hrow
        exact lookupLen_built hrow hg.len_nodup
    | false =>
      rcases create_element_cache_good hg hb hn1 hn26 with ⟨s2, hok, h1, h2, h3, _, h5⟩
      refine ⟨s2, ?_, h1, h2, h3, h5⟩
      unfold ensureCache
      rw [hb]
      rw [if_neg (by simp)]
      rw [hok]
      rfl
  rcases hex with ⟨s2, hpre, hg2, hm1, hm2, hlook⟩
  rcases skipZeros_decomp word hnz with ⟨zs, hdec, hz, g, rest, hsk, hgne⟩
  have hword_ne : word ≠ [] := by
    rcases hnz with ⟨u, hu, _⟩
    intro h
    rw [h] at hu
    cases hu
  have hgmem : g ∈ word := by
    rw [hdec, hsk]
    exact List.mem_append_right _ (List.mem_cons_self g rest)
  rcases hgens g hgmem with ⟨hg0, hgn⟩
  have hrestmem : ∀ u ∈ rest, 0 ≤ u ∧ u < (n : Int) := by
    intro u hu
    apply hgens
    rw [hdec, hsk]
    exact List.mem_append_right _ (List.mem_cons_of_mem g hu)
  have hgt : 1 ≤ g.toNat := by omega
  have hgtn : g.toNat < n := by omega
  have hmin : min n alphaLen = n := by
    unfold alphaLen
    omega
  have hE1 : wordProdI [g] n = swapValues (g.toNat - 1) (baseArrangement n) := by
    unfold wordProdI wordProd
    simp only [List.map_cons, List.map_nil, List.foldr_cons, List.foldr_nil]
    exact applyGen_base hgt (by omega)
  have hE1inv : invCount (wordProdI [g] n) = 1 := by
    rw [hE1, baseArrangement_eq hn26]
    exact invCount_swapValues_range (by omega)
  have hhStep : heckeStep (baseArrangement n) g.toNat = wordProdI [g] n := by
    have h1 : heckeStep (baseArrangement n) g.toNat =
        (if invCount (baseArrangement n) <
            invCount (swapValues (g.toNat - 1) (baseArrangement n))
         then swapValues (g.toNat - 1) (baseArrangement n) else baseArrangement n) := by
      unfold heckeStep
      rw [if_neg (show ¬ g.toNat = 0 by omega)]
    rw [h1, ← hE1, if_pos (by rw [invCount_base, hE1inv]; omega)]
  rcases demStepFold_spec hlook hn26 rest [g]
    (hrestmem) (by intro u hu; rcases List.mem_singleton.mp hu with rfl; exact ⟨hg0, hgn⟩)
    (by simp) (by rw [hE1inv]; rfl)
    with ⟨pw, hfold, hq1, hq2, hq3, hq4⟩
  have hhecke : heckeFold word n = rest.foldl (fun e g => heckeStep e g.toNat)
      (wordProdI [g] n) := by
    unfold heckeFold
    rw [hdec, List.foldl_append, heckeFoldl_zeros zs _ hz, hsk, List.foldl_cons, hhStep]
  refine ⟨s2, pw, ?_, hg2, hm1, hm2, hq1, hq2, by rw [hq3, hhecke], by rw [hq4, hq3, hhecke]⟩
  unfold demazure_product
  rw [hpre]
  show (match word with
    | [] => Except.ok (s2, DemRes.pair [] (baseArrangement n))
    | _ :: _ =>
      match skipZeros word with
      | [] => Except.ok (s2, DemRes.word [])
      | g :: rest => do
        let pw ← rest.foldlM (fun pw i => demStep s2 n pw i) [g]
        Except.ok (s2, DemRes.word pw)) = _
  obtain ⟨x, xs, hxe⟩ : ∃ x xs, word = x :: xs := by
    cases word with
    | nil => exact absurd rfl hword_ne
    | cons x xs => exact ⟨x, xs, rfl⟩
  rw [hxe] at hsk
  rw [hxe]
  show (match skipZeros (x :: xs) with
    | [] => Except.ok (s2, DemRes.word [])
    | g :: rest => do
      let pw ← rest.foldlM (fun pw i => demStep s2 n pw i) [g]
      Except.ok (s2, DemRes.word pw)) = _
  rw [hsk]
  show (do
    let pw ← rest.foldlM (fun pw i => demStep s2 n pw i) [g]
    Except.ok (s2, DemRes.word pw)) = _
  rw [hfold]
  rfl

theorem ensureCache_spec {s : Store} {n : Nat} (hg : GoodStore s)
    (hn1 : 1 ≤ n) (hn26 : n ≤ 26) :
    ∃ s2, ensureCache n s = .ok s2 ∧ GoodStore s2 ∧
      (∀ r ∈ s.lengths, r ∈ s2.lengths) ∧ (∀ r ∈ s.words, r ∈ s2.words) ∧
      (∀ e : List Nat, e.Perm (List.range n) → lookupLen s2 n e = some (invCount e)) := by
  cases hb : cacheHasLenZero s n with
  | true =>
    refine ⟨s, by unfold ensureCache; rw [hb]; rfl, hg, fun r hr => hr, fun r hr => hr, ?_⟩
    intro e he
    unfold cacheHasLenZero at hb
    rw [Bool.not_eq_true'] at hb
    have hnem : s.lengths.filter (fun r => decide (r.2.1 = n ∧ r.2.2 = 0)) ≠ [] := by
      intro h
      rw [h] at hb
      cases hb
    cases hfl : s.lengths.filter (fun r => decide (r.2.1 = n ∧ r.2.2 = 0)) with
    | nil => exact absurd hfl hnem
    | cons r rest =>
      have hrmem : r ∈ s.lengths.filter (fun r => decide (r.2.1 = n ∧ r.2.2 = 0)) := by
        rw [hfl]
        exact List.mem_cons_self r rest
      have hrs : r ∈ s.lengths := List.mem_of_mem_filter hrmem
      have hcond := of_decide_eq_true (List.mem_filter.mp hrmem).2
      have hrow := hg.len_complete r hrs e (by rw [hcond.1]; exact he)
      rw [hcond.1] at hrow
      exact lookupLen_built hrow hg.len_nodup
  | false =>
    rcases create_element_cache_good hg hb hn1 hn26 with ⟨s2, hok, h1, h2, h3, _, h5⟩
    refine ⟨s2, ?_, h1, h2, h3, h5⟩
    unfold ensureCache
    rw [hb]
    rw [if_neg (by simp)]
    rw [hok]
    rfl

theorem demazure_product_allzero {word : List Int} {n : Nat} {s : Store}
    (hg : GoodStore s) (hn1 : 1 ≤ n) (hn26 : n ≤ 26)
    (hz : ∀ g ∈ word, g = 0) (hne : word ≠ []) :
    ∃ s', demazure_product word n s = .ok (s', DemRes.word [0]) ∧ GoodStore s' := by
  rcases ensureCache_spec hg hn1 hn26 with ⟨s2, hpre, hg2, _, _, _⟩
  have hsk := skipZeros_allzero word hne hz
  refine ⟨s2, ?_, hg2⟩
  unfold demazure_product
  rw [hpre]
  obtain ⟨x, xs, hxe⟩ : ∃ x xs, word = x :: xs := by
    cases word with
    | nil => exact absurd rfl hne
    | cons x xs => exact ⟨x, xs, rfl⟩
  rw [hxe] at hsk
  rw [hxe]
  show (match skipZeros (x :: xs) with
    | [] => Except.ok (s2, DemRes.word [])
    | g :: rest => do
      let pw ← rest.foldlM (fun pw i => demStep s2 n pw i) [g]
      Except.ok (s2, DemRes.word pw)) = _
  rw [hsk]
  rfl

/-! Facts about a build on the fresh store. -/

theorem ambOK_empty (n : Nat) : AmbOK n emptyStore :=
  ⟨fun r hr => (List.not_mem_nil r hr).elim, fun r hr => (List.not_mem_nil r hr).elim⟩

theorem fresh_build_state {n : Nat} {s' : Store} (hn1 : 1 ≤ n) (hn26 : n ≤ 26)
    (hok : create_element_cache n emptyStore = .ok (true, s')) :
    BuildState n (dimOf n) (dimOf n) emptyStore s' := by
  rcases create_element_cache_spec hn1 hn26 (ambOK_empty n)
    List.nodup_nil List.nodup_nil
    with ⟨s'', hok2, hbs⟩
  rw [hok] at hok2
  have hss : s' = s'' := by
    simp only [Except.ok.injEq, Prod.mk.injEq] at hok2
    exact hok2.2
  rw [hss]
  exact hbs

theorem fresh_build_rows {n : Nat} {s' : Store} (hn1 : 1 ≤ n) (hn26 : n ≤ 26)
    (hok : create_element_cache n emptyStore = .ok (true, s')) :
    ∀ r ∈ s'.lengths, r.2.1 = n ∧ r.1.Perm (List.range n) ∧ r.2.2 = invCount r.1 := by
  have hbs := fresh_build_state hn1 hn26 hok
  intro r hr
  rcases hbs.new_len r hr with h | ⟨h1, h2, h3, _⟩
  · cases h
  · exact ⟨h1, h2, h3⟩

theorem fresh_build_word_rows {n : Nat} {s' : Store} (hn1 : 1 ≤ n) (hn26 : n ≤ 26)
    (hok : create_element_cache n emptyStore = .ok (true, s')) :
    ∀ r ∈ s'.words, r.2.1 = n ∧ wordProd r.2.2 n = r.1 ∧ r.2.2.length = invCount r.1 ∧
      ∀ g ∈ r.2.2, 1 ≤ g ∧ g < n := by
  have hbs := fresh_build_state hn1 hn26 hok
  intro r hr
  rcases hbs.new_word r hr with h | ⟨h1, h2, h3, _, h5⟩
  · cases h
  · exact ⟨h1, h2, h3, h5⟩

theorem fresh_build_count {n : Nat} {s' : Store} (hn1 : 1 ≤ n) (hn26 : n ≤ 26)
    (hok : create_element_cache n emptyStore = .ok (true, s')) :
    s'.lengths.length = Nat.factorial n := by
  have hbs := fresh_build_state hn1 hn26 hok
  have hrows := fresh_build_rows hn1 hn26 hok
  have hkeys_nodup : (s'.lengths.map (fun r => r.1)).Nodup := hbs.len_nodup
  have hperm_nodup : (List.range n).permutations.Nodup :=
    List.nodup_permutations _ (List.nodup_range n)
  have hmem_iff : ∀ a : List Nat,
      a ∈ s'.lengths.map (fun r => r.1) ↔ a ∈ (List.range n).permutations := by
    intro a
    constructor
    · intro h
      rcases List.mem_map.mp h with ⟨r, hr, hre⟩
      apply List.mem_permutations.mpr
      rw [← hre]
      exact (hrows r hr).2.1
    · intro h
      have hperm := List.mem_permutations.mp h
      apply List.mem_map.mpr
      exact ⟨(a, n, invCount a), buildState_complete_all hbs hperm, rfl⟩
  have hp : (s'.lengths.map (fun r => r.1)).Perm (List.range n).permutations :=
    (List.perm_ext_iff_of_nodup hkeys_nodup hperm_nodup).mpr hmem_iff
  have := hp.length_eq
  rw [List.length_map, List.length_permutations, List.length_range] at this
  exact this

theorem fresh_build_max_filter {n : Nat} {s' : Store} (hn1 : 1 ≤ n) (hn26 : n ≤ 26)
    (hok : create_element_cache n emptyStore = .ok (true, s')) :
    s'.lengths.filter (fun r => decide (r.2.2 = n * (n-1) / 2)) =
      [((List.range n).reverse, n, n * (n-1) / 2)] := by
  have hbs := fresh_build_state hn1 hn26 hok
  have hrows := fresh_build_rows hn1 hn26 hok
  have hrevperm : ((List.range n).reverse).Perm (List.range n) := List.reverse_perm _
  have hrevinv : invCount (List.range n).reverse = n * (n-1) / 2 := invCount_reverse_range n
  have hmem : ((List.range n).reverse, n, n * (n-1) / 2) ∈ s'.lengths := by
    have := buildState_complete_all hbs hrevperm
    rwa [hrevinv] at this
  apply singleton_of_nodup_keys
  · exact (List.Sublist.map _ (List.filter_sublist _)).nodup hbs.len_nodup
  · exact List.mem_filter.mpr ⟨hmem, by simp⟩
  · intro a ha
    rcases List.mem_filter.mp ha with ⟨has, hacond⟩
    have hc := of_decide_eq_true hacond
    rcases hrows a has with ⟨h1, h2, h3⟩
    have hmax : invCount a.1 = n * (n-1) / 2 := by
      rw [← h3, hc]
    have : a.1 = (List.range n).reverse := eq_reverse_range_of_invCount_max h2 hmax
    obtain ⟨e0, m0, l0⟩ := a
    simp only at h1 h3 this hc
    rw [this, h1, hc]

/-! Lemmas for subword enumeration. -/

theorem mapM_ok {α β : Type} (l : List α) (f : α → Except PyErr β) (g : α → β)
    (h : ∀ x ∈ l, f x = .ok (g x)) : l.mapM f = .ok (l.map g) := by
  induction l with
  | nil => rfl
  | cons a l ih =>
    rw [List.mapM_cons, h a (List.mem_cons_self a l),
      ih (fun x hx => h x (List.mem_cons_of_mem a hx))]
    rfl

theorem foldl_sig_const (i : Nat) :
    ∀ (l : List Nat) (a : Nat), (∀ j ∈ l, ¬ 2 ^ (53 + j) ≤ i) →
    l.foldl (fun a j => if 2 ^ (53 + j) ≤ i then j + 1 else a) a = a := by
  intro l
  induction l with
  | nil => intro a _; rfl
  | cons b l ih =>
    intro a hno
    rw [List.foldl_cons, if_neg (hno b (List.mem_cons_self b l))]
    exact ih a (fun j hj => hno j (List.mem_cons_of_mem b hj))

theorem sigExp_small {i : Nat} (h : i < 2 ^ 53) : sigExp i = 0 := by
  unfold sigExp
  apply foldl_sig_const
  intro j _
  have hmono : (2 : Nat) ^ 53 ≤ 2 ^ (53 + j) := Nat.pow_le_pow_right (by omega) (by omega)
  omega

theorem float64Round_small {i : Nat} (h : i < 2 ^ 53) : float64Round i = i := by
  unfold float64Round
  rw [sigExp_small h]
  simp

theorem float64RoundZ_small {x : Int} (h1 : -(2 ^ 53) < x) (h2 : x < 2 ^ 53) :
    float64RoundZ x = x := by
  have e53i : (2 : Int) ^ 53 = 9007199254740992 := by norm_num
  have e53n : (2 : Nat) ^ 53 = 9007199254740992 := by norm_num
  rw [e53i] at h1 h2
  unfold float64RoundZ
  by_cases hx : x < 0
  · rw [if_pos hx]
    have hlt : (-x).toNat < 2 ^ 53 := by omega
    rw [float64Round_small hlt]
    omega
  · rw [if_neg hx]
    have hlt : x.toNat < 2 ^ 53 := by omega
    rw [float64Round_small hlt]
    omega

theorem int32Cast_small {x : Int} (h1 : -(2 ^ 31) ≤ x) (h2 : x < 2 ^ 31) :
    int32Cast x = x := by
  have e31 : (2 : Int) ^ 31 = 2147483648 := by norm_num
  have e32 : (2 : Int) ^ 32 = 4294967296 := by norm_num
  unfold int32Cast
  rw [e31] at h1 h2 ⊢
  rw [e32]
  rw [Int.emod_eq_of_lt (by omega) (by omega)]
  omega

/-- Generators inside the 32-bit range pass through `float64` and
`astype(int32)` unchanged. -/
theorem gen_exact {g : Int} (h1 : -(2 ^ 31) < g) (h2 : g < 2 ^ 31) :
    int32Cast (float64RoundZ g) = g := by
  have e31 : (2 : Int) ^ 31 = 2147483648 := by norm_num
  have e53 : (2 : Int) ^ 53 = 9007199254740992 := by norm_num
  have hf : float64RoundZ g = g := float64RoundZ_small (by omega) (by omega)
  rw [hf]
  exact int32Cast_small (by omega) h2

theorem int32Cast_zero : int32Cast 0 = 0 := by
  unfold int32Cast
  norm_num

theorem maskBits_length : ∀ (w : List Int) (m : Nat), (maskBits w m).length = w.length := by
  intro w
  induction w with
  | nil => intro m; rfl
  | cons g w ih =>
    intro m
    simp only [maskBits, List.length_cons, ih]

theorem maskWord_length (w : List Int) : ∀ i, (maskWord w i).length = w.length := by
  intro i
  exact maskBits_length w _

theorem maskBits_mem (w : List Int) (hb : ∀ g ∈ w, -(2 ^ 31) < g ∧ g < 2 ^ 31) :
    ∀ m, ∀ j ∈ maskBits w m, j = 0 ∨ j ∈ w := by
  induction w with
  | nil =>
    intro m j hj
    cases hj
  | cons g w ih =>
    intro m j hj
    rcases hb g (List.mem_cons_self g w) with ⟨hg1, hg2⟩
    rcases List.mem_cons.mp hj with rfl | hj
    · rcases Nat.mod_two_eq_zero_or_one m with h | h
      · left
        rw [h]
        show int32Cast (((0 : Nat) : Int) * float64RoundZ g) = 0
        rw [Nat.cast_zero, zero_mul]
        exact int32Cast_zero
      · right
        rw [h]
        show int32Cast (((1 : Nat) : Int) * float64RoundZ g) ∈ g :: w
        rw [Nat.cast_one, one_mul, gen_exact hg1 hg2]
        exact List.mem_cons_self g w
    · rcases ih (fun u hu => hb u (List.mem_cons_of_mem g hu)) (m / 2) j hj with h | h
      · exact Or.inl h
      · exact Or.inr (List.mem_cons_of_mem g h)

theorem maskWord_mem (w : List Int) (hb : ∀ g ∈ w, -(2 ^ 31) < g ∧ g < 2 ^ 31) :
    ∀ i, ∀ j ∈ maskWord w i, j = 0 ∨ j ∈ w := by
  intro i
  exact maskBits_mem w hb (float64Round i)

theorem maskBits_zero (w : List Int) : ∀ j ∈ maskBits w 0, j = 0 := by
  induction w with
  | nil => intro j hj; cases hj
  | cons g w ih =>
    intro j hj
    rcases List.mem_cons.mp hj with rfl | hj
    · show int32Cast (((0 % 2 : Nat) : Int) * float64RoundZ g) = 0
      rw [Nat.zero_mod, Nat.cast_zero, zero_mul]
      exact int32Cast_zero
    · exact ih j hj

theorem maskWord_zero (w : List Int) : ∀ j ∈ maskWord w 0, j = 0 := by
  have h0 : float64Round 0 = 0 := float64Round_small (by norm_num)
  unfold maskWord
  rw [h0]
  exact maskBits_zero w

theorem foldl_max_ge : ∀ (gs : List Int) (a : Int), a ≤ gs.foldl max a := by
  intro gs
  induction gs with
  | nil => intro a; exact Int.le_refl a
  | cons b gs ih =>
    intro a
    rw [List.foldl_cons]
    exact le_trans (le_max_left a b) (ih (max a b))

theorem foldl_max_ge_mem : ∀ (gs : List Int) (a : Int), ∀ u ∈ gs, u ≤ gs.foldl max a := by
  intro gs
  induction gs with
  | nil => intro a u hu; cases hu
  | cons b gs ih =>
    intro a u hu
    rcases List.mem_cons.mp hu with rfl | hu
    · rw [List.foldl_cons]
      exact le_trans (le_max_right a u) (foldl_max_ge gs (max a u))
    · rw [List.foldl_cons]
      exact ih (max a b) u hu

theorem foldl_max_cases : ∀ (gs : List Int) (a : Int), gs.foldl max a = a ∨ gs.foldl max a ∈ gs := by
  intro gs
  induction gs with
  | nil => intro a; exact Or.inl rfl
  | cons b gs ih =>
    intro a
    rw [List.foldl_cons]
    rcases ih (max a b) with h | h
    · rcases le_total a b with hab | hab
      · right
        rw [h, max_eq_right hab]
        exact List.mem_cons_self b gs
      · left
        rw [h, max_eq_left hab]
    · exact Or.inr (List.mem_cons_of_mem b h)

theorem identify_n_spec {word : List Int} (hne : word ≠ [])
    (hpos : ∀ g ∈ word, 0 ≤ g) :
    1 ≤ identify_n word ∧ (∀ g ∈ word, g < identify_n word) ∧
    (∀ b : Int, (∀ g ∈ word, g < b) → identify_n word ≤ b) := by
  obtain ⟨g, gs, rfl⟩ : ∃ g gs, word = g :: gs := by
    cases word with
    | nil => exact absurd rfl hne
    | cons g gs => exact ⟨g, gs, rfl⟩
  have hid : identify_n (g :: gs) = gs.foldl max g + 1 := rfl
  have hg0 : 0 ≤ g := hpos g (List.mem_cons_self g gs)
  have hga : g ≤ gs.foldl max g := foldl_max_ge gs g
  refine ⟨by rw [hid]; omega, ?_, ?_⟩
  · intro u hu
    rw [hid]
    rcases List.mem_cons.mp hu with rfl | hu
    · omega
    · have := foldl_max_ge_mem gs g u hu
      omega
  · intro b hb
    rw [hid]
    rcases foldl_max_cases gs g with h | h
    · rw [h]
      have := hb g (List.mem_cons_self g gs)
      omega
    · have := hb _ (List.mem_cons_of_mem g h)
      omega

theorem identify_n_toNat_facts {sw : List Int} {n : Nat}
    (hne : sw ≠ []) (hgens : ∀ g ∈ sw, 0 ≤ g ∧ g < (n : Int)) (hn26 : n ≤ 26) :
    1 ≤ (identify_n sw).toNat ∧ (identify_n sw).toNat ≤ n ∧
    (∀ g ∈ sw, 0 ≤ g ∧ g < ((identify_n sw).toNat : Int)) := by
  rcases identify_n_spec hne (fun g hg => (hgens g hg).1) with ⟨h1, h2, h3⟩
  have hub : identify_n sw ≤ (n : Int) := h3 (n : Int) (fun g hg => (hgens g hg).2)
  have hcast : ((identify_n sw).toNat : Int) = identify_n sw := Int.toNat_of_nonneg (by omega)
  refine ⟨by omega, by omega, ?_⟩
  intro g hg
  refine ⟨(hgens g hg).1, ?_⟩
  rw [hcast]
  exact h2 g hg

theorem except_bind_ok {α β : Type} (a : α) (f : α → Except PyErr β) :
    (Except.ok a >>= f) = f a := rfl

theorem demazure_mask_fold {n : Nat} (hn1 : 1 ≤ n) (hn26 : n ≤ 26) :
    ∀ (sws : List (List Int)) (s : Store) (acc : List DemRes),
    GoodStore s →
    (∀ sw ∈ sws, sw ≠ [] ∧ ∀ g ∈ sw, 0 ≤ g ∧ g < (n : Int)) →
    ∃ s' ress,
      sws.foldlM (fun (acc : Store × List DemRes) sw => do
          let r ← demazure_product sw (identify_n sw).toNat acc.1
          Except.ok (r.1, acc.2 ++ [r.2])) (s, acc) = .ok (s', acc ++ ress) ∧
      GoodStore s' ∧ ress.length = sws.length ∧
      (∀ r ∈ ress, ∃ pw, r = DemRes.word pw ∧ pw ≠ [] ∧
        ∀ g ∈ pw, 0 ≤ g ∧ g < (n : Int)) ∧
      (∀ (k : Nat) (sw0 : List Int), sws[k]? = some sw0 → (∀ g ∈ sw0, g = 0) →
        ress[k]? = some (DemRes.word [0])) := by
  intro sws
  induction sws with
  | nil =>
    intro s acc hg _
    refine ⟨s, [], by rw [List.append_nil]; rfl, hg, rfl, by simp, ?_⟩
    intro k sw0 hk
    simp at hk
  | cons sw sws ih =>
    intro s acc hg hok
    rcases hok sw (List.mem_cons_self sw sws) with ⟨hne, hgens⟩
    rcases identify_n_toNat_facts hne hgens hn26 with ⟨hn'1, hn'n, hgens'⟩
    have hn'26 : (identify_n sw).toNat ≤ 26 := by omega
    by_cases hz : ∀ g ∈ sw, g = 0
    · rcases demazure_product_allzero hg hn'1 hn'26 hz hne with ⟨s1, hdem, hg1⟩
      rcases ih s1 (acc ++ [DemRes.word [0]]) hg1
        (fun u hu => hok u (List.mem_cons_of_mem sw hu)) with ⟨s', ress', hfold, hgs, hlen, hprops, hidx⟩
      refine ⟨s', DemRes.word [0] :: ress', ?_, hgs, by simp [hlen], ?_, ?_⟩
      · rw [List.foldlM_cons]
        have hstep : (do
            let r ← demazure_product sw (identify_n sw).toNat (s, acc).1
            Except.ok (r.1, (s, acc).2 ++ [r.2]) : Except PyErr (Store × List DemRes)) =
            .ok (s1, acc ++ [DemRes.word [0]]) := by
          show (do
            let r ← demazure_product sw (identify_n sw).toNat s
            Except.ok (r.1, acc ++ [r.2]) : Except PyErr (Store × List DemRes)) = _
          rw [hdem]
          rfl
        rw [hstep, except_bind_ok]
        rw [hfold]
        simp
      · intro r hr
        rcases List.mem_cons.mp hr with rfl | hr
        · refine ⟨[0], rfl, by simp, ?_⟩
          intro g hgm
          have : g = 0 := by simpa using hgm
          subst this
          constructor
          · omega
          · exact_mod_cast Nat.pos_of_ne_zero (by omega)
        · exact hprops r hr
      · intro k sw0 hk hz0
        cases k with
        | zero => simp
        | succ k =>
          simp only [List.getElem?_cons_succ] at hk ⊢
          exact hidx k sw0 hk hz0
    · push_neg at hz
      rcases hz with ⟨g0, hg0mem, hg0ne⟩
      rcases demazure_product_spec hg hn'1 hn'26 hgens' ⟨g0, hg0mem, hg0ne⟩
        with ⟨s1, pw, hdem, hg1, _, _, hpw, hpwne, _, _⟩
      rcases ih s1 (acc ++ [DemRes.word pw]) hg1
        (fun u hu => hok u (List.mem_cons_of_mem sw hu)) with ⟨s', ress', hfold, hgs, hlen, hprops, hidx⟩
      refine ⟨s', DemRes.word pw :: ress', ?_, hgs, by simp [hlen], ?_, ?_⟩
      · rw [List.foldlM_cons]
        have hstep : (do
            let r ← demazure_product sw (identify_n sw).toNat (s, acc).1
            Except.ok (r.1, (s, acc).2 ++ [r.2]) : Except PyErr (Store × List DemRes)) =
            .ok (s1, acc ++ [DemRes.word pw]) := by
          show (do
            let r ← demazure_product sw (identify_n sw).toNat s
            Except.ok (r.1, acc ++ [r.2]) : Except PyErr (Store × List DemRes)) = _
          rw [hdem]
          rfl
        rw [hstep, except_bind_ok]
        rw [hfold]
        simp
      · intro r hr
        rcases List.mem_cons.mp hr with rfl | hr
        · refine ⟨pw, rfl, hpwne, ?_⟩
          intro u hu
          rcases hpw u hu with ⟨hu1, hu2⟩
          have : ((identify_n sw).toNat : Int) ≤ (n : Int) := by exact_mod_cast hn'n
          exact ⟨hu1, by omega⟩
        · exact hprops r hr
      · intro k sw0 hk hz0
        cases k with
        | zero =>
          simp only [List.getElem?_cons_zero, Option.some.injEq] at hk
          exfalso
          exact hg0ne (hz0 g0 (hk ▸ hg0mem))
        | succ k =>
          simp only [List.getElem?_cons_succ] at hk ⊢
          exact hidx k sw0 hk hz0

theorem zip_getElem_zero {α β : Type} {l1 : List α} {l2 : List β} {a : α} {b : β}
    (h1 : l1[0]? = some a) (h2 : l2[0]? = some b) : (l1.zip l2)[0]? = some (a, b) := by
  cases l1 with
  | nil => simp at h1
  | cons x xs =>
    cases l2 with
    | nil => simp at h2
    | cons y ys =>
      simp at h1 h2
      simp [List.zip_cons_cons, h1, h2]

theorem subword_element_association_spec {word : List Int} {n : Nat} {s : Store}
    (hg : GoodStore s) (hn26 : n ≤ 26)
    (hd1 : 1 ≤ word.length) (hd64 : word.length < 64)
    (hgens : ∀ g ∈ word, 0 ≤ g ∧ g < (n : Int)) :
    ∃ s' rows, subword_element_association word n s = .ok (s', rows) ∧
      rows.length = 2 ^ word.length ∧
      rows.map Prod.fst = (List.range (2 ^ word.length)).map (fun i => maskWord word i) ∧
      rows[0]? = some (maskWord word 0, baseArrangement n) := by
  have hn1 : 1 ≤ n := by
    obtain ⟨g, hgm⟩ : ∃ g, g ∈ word := by
      cases word with
      | nil => simp at hd1
      | cons x xs => exact ⟨x, List.mem_cons_self x xs⟩
    rcases hgens g hgm with ⟨h1, h2⟩
    by_contra h
    have : n = 0 := by omega
    rw [this] at h2
    omega
  have hb : ∀ g ∈ word, -(2 ^ 31) < g ∧ g < 2 ^ 31 := by
    intro g hg
    rcases hgens g hg with ⟨h1, h2⟩
    have e31 : (2 : Int) ^ 31 = 2147483648 := by norm_num
    have hn26i : (n : Int) ≤ 26 := by exact_mod_cast hn26
    constructor
    · omega
    · omega
  have hmapM1 : (List.range (2 ^ word.length)).mapM (fun i => subword (word, i)) =
      .ok ((List.range (2 ^ word.length)).map (fun i => maskWord word i)) := by
    apply mapM_ok
    intro i _
    unfold subword
    rw [if_neg (by simp only; omega)]
  set swsList := (List.range (2 ^ word.length)).map (fun i => maskWord word i) with hsws_def
  have hswprops : ∀ sw ∈ swsList, sw ≠ [] ∧ ∀ g ∈ sw, 0 ≤ g ∧ g < (n : Int) := by
    intro sw hsw
    rcases List.mem_map.mp hsw with ⟨i, _, hswi⟩
    constructor
    · intro hnil
      have := maskWord_length word i
      rw [hswi, hnil] at this
      simp at this
      omega
    · intro g hgm
      rw [← hswi] at hgm
      rcases maskWord_mem word hb i g hgm with h | h
      · rw [h]
        constructor
        · omega
        · exact_mod_cast Nat.pos_of_ne_zero (by omega)
      · exact hgens g h
  rcases demazure_mask_fold hn1 hn26 swsList s [] hg hswprops
    with ⟨s', ress, hfold, hgs', hlen, hprops, hidx⟩
  rw [List.nil_append] at hfold
  have hmapM2 : ress.mapM (fun r =>
      match r with
      | DemRes.word w => standard_product w n
      | DemRes.pair _ _ => (.error .typeError : Except PyErr (List Nat))) =
      .ok (ress.map (fun r =>
        match r with
        | DemRes.word w => wordProdI w n
        | DemRes.pair _ _ => [])) := by
    apply mapM_ok
    intro r hr
    rcases hprops r hr with ⟨pw, rfl, _, hpw⟩
    show standard_product pw n = _
    apply standard_product_ok
    intro g hgm
    rcases hpw g hgm with ⟨h1, h2⟩
    refine ⟨h1, h2, by omega⟩
  set elems := ress.map (fun r =>
      match r with
      | DemRes.word w => wordProdI w n
      | DemRes.pair _ _ => ([] : List Nat)) with helems_def
  have hswslen : swsList.length = 2 ^ word.length := by
    rw [hsws_def, List.length_map, List.length_range]
  have helemslen : elems.length = 2 ^ word.length := by
    rw [helems_def, List.length_map, hlen, hswslen]
  refine ⟨s', swsList.zip elems, ?_, ?_, ?_, ?_⟩
  · unfold subword_element_association
    rw [hmapM1, except_bind_ok]
    rw [hfold, except_bind_ok]
    show (do
      let elems2 ← ress.mapM (fun r =>
        match r with
        | DemRes.word w => standard_product w n
        | DemRes.pair _ _ => (.error .typeError : Except PyErr (List Nat)))
      Except.ok (s', swsList.zip elems2) : Except PyErr (Store × List (List Int × List Nat))) = _
    rw [hmapM2, except_bind_ok]
  · rw [List.length_zip, hswslen, helemslen]
    simp
  · have : swsList.length ≤ elems.length := by omega
    rw [List.map_fst_zip swsList elems this, hsws_def]
  · have hpow : 0 < 2 ^ word.length := Nat.pos_pow_of_pos _ (by omega)
    have hsw0 : swsList[0]? = some (maskWord word 0) := by
      rw [hsws_def, List.getElem?_map, List.getElem?_range hpow]
      rfl
    have hress0 : ress[0]? = some (DemRes.word [0]) :=
      hidx 0 (maskWord word 0) hsw0 (maskWord_zero word)
    have helems0 : elems[0]? = some (baseArrangement n) := by
      rw [helems_def, List.getElem?_map, hress0]
      show some (wordProdI [0] n) = _
      congr 1
    exact zip_getElem_zero hsw0 helems0

/-! Expression length of a masked word. -/

theorem popcount_eq (i : Nat) : popcount i = i % 2 + popcount (i / 2) := by
  cases i with
  | zero => simp [popcount]
  | succ k => rw [popcount]

theorem expression_length_maskBits :
    ∀ (w : List Int) (m : Nat),
    (∀ g ∈ w, g ≠ 0 ∧ -(2 ^ 31) < g ∧ g < 2 ^ 31) → m < 2 ^ w.length →
    calculate_expression_length (maskBits w m) = popcount m := by
  intro w
  induction w with
  | nil =>
    intro m _ hm
    have hz : m = 0 := by
      simp only [List.length_nil, pow_zero] at hm
      omega
    rw [hz]
    simp [popcount, calculate_expression_length, maskBits]
  | cons g w ih =>
    intro m hgs hm
    rcases hgs g (List.mem_cons_self g w) with ⟨hg0, hg1, hg2⟩
    have hm2 : m / 2 < 2 ^ w.length := by
      have hpow : 2 ^ (g :: w).length = 2 * 2 ^ w.length := by
        rw [List.length_cons, pow_succ]
        ring
      omega
    have hrec := ih (m / 2) (fun u hu => hgs u (List.mem_cons_of_mem g hu)) hm2
    show calculate_expression_length
      (int32Cast (((m % 2 : Nat) : Int) * float64RoundZ g) :: maskBits w (m / 2)) = _
    unfold calculate_expression_length at hrec ⊢
    rw [List.filter_cons]
    rw [popcount_eq m]
    rcases Nat.mod_two_eq_zero_or_one m with h | h
    · rw [h]
      have hzero : int32Cast (((0 : Nat) : Int) * float64RoundZ g) = 0 := by
        rw [Nat.cast_zero, zero_mul]
        exact int32Cast_zero
      have hcond : (decide (int32Cast (((0 : Nat) : Int) * float64RoundZ g) ≠ 0)) = false := by
        simp [hzero, int32Cast_zero]
      simp only [hcond, Bool.false_eq_true, if_false, hrec]
      omega
    · rw [h]
      have hval : int32Cast (((1 : Nat) : Int) * float64RoundZ g) = g := by
        rw [Nat.cast_one, one_mul]
        exact gen_exact hg1 hg2
      have hcond : (decide (int32Cast (((1 : Nat) : Int) * float64RoundZ g) ≠ 0)) = true := by
        simp [gen_exact hg1 hg2, hg0]
      simp only [hcond, if_true, List.length_cons, hrec]
      omega

theorem expression_length_maskWord :
    ∀ (w : List Int) (i : Nat),
    (∀ g ∈ w, g ≠ 0 ∧ -(2 ^ 31) < g ∧ g < 2 ^ 31) → i < 2 ^ w.length → i < 2 ^ 53 →
    calculate_expression_length (maskWord w i) = popcount i := by
  intro w i hgs hi hi53
  unfold maskWord
  rw [float64Round_small hi53]
  exact expression_length_maskBits w i hgs hi

theorem popcount_two_pow : ∀ k : Nat, popcount (2 ^ k) = 1 := by
  intro k
  induction k with
  | zero =>
    rw [pow_zero, popcount_eq]
    simp [popcount]
  | succ k ih =>
    rw [popcount_eq]
    have h2 : 2 ^ (k + 1) % 2 = 0 := by
      rw [pow_succ]
      simp [Nat.mul_mod_left]
    have h3 : 2 ^ (k + 1) / 2 = 2 ^ k := by
      rw [pow_succ]
      exact Nat.mul_div_cancel _ (by omega)
    rw [h2, h3, ih]

/-! Shape of rows inserted by the build, for the element-length invariant. -/

/-- Elements have exactly `n_value` symbols, in both tables. -/
def StoreInv (s : Store) : Prop :=
  (∀ r ∈ s.lengths, r.1.length = r.2.1) ∧ (∀ r ∈ s.words, r.1.length = r.2.1)

theorem foldl_rows_shape {α : Type} (P : List Nat × Nat × Nat → Prop)
    (Q : List Nat × Nat × List Nat → Prop) (f : Store → α → Store)
    (hstep : ∀ s a, (∀ r ∈ (f s a).lengths, r ∈ s.lengths ∨ P r) ∧
      (∀ r ∈ (f s a).words, r ∈ s.words ∨ Q r)) :
    ∀ (l : List α) (s : Store),
    (∀ r ∈ (l.foldl f s).lengths, r ∈ s.lengths ∨ P r) ∧
    (∀ r ∈ (l.foldl f s).words, r ∈ s.words ∨ Q r) := by
  intro l
  induction l with
  | nil => intro s; exact ⟨fun r hr => Or.inl hr, fun r hr => Or.inl hr⟩
  | cons a l ih =>
    intro s
    rw [List.foldl_cons]
    rcases ih (f s a) with ⟨h1, h2⟩
    constructor
    · intro r hr
      rcases h1 r hr with h | h
      · rcases (hstep s a).1 r h with h' | h'
        · exact Or.inl h'
        · exact Or.inr h'
      · exact Or.inr h
    · intro r hr
      rcases h2 r hr with h | h
      · rcases (hstep s a).2 r h with h' | h'
        · exact Or.inl h'
        · exact Or.inr h'
      · exact Or.inr h

theorem buildInsert_rows_shape (n L : Nat) (check : List (List Nat)) (w : List Nat)
    (s : Store) (i : Nat) :
    (∀ r ∈ (buildInsert n L check w s i).lengths, r ∈ s.lengths ∨
      (r.2.1 = n ∧ r.1.length = min n alphaLen)) ∧
    (∀ r ∈ (buildInsert n L check w s i).words, r ∈ s.words ∨
      (r.2.1 = n ∧ r.1.length = min n alphaLen)) := by
  unfold buildInsert
  simp only
  by_cases hmem : wordProd (w ++ [i]) n ∈ check
  · rw [if_pos hmem]
    exact ⟨fun r hr => Or.inl hr, fun r hr => Or.inl hr⟩
  · rw [if_neg hmem]
    constructor
    · intro r hr
      rw [insertWord_lengths] at hr
      rcases insertLength_mem_cases hr with h | h
      · exact Or.inl h
      · right
        rw [h]
        exact ⟨rfl, wordProd_length _ _⟩
    · intro r hr
      rcases insertWord_mem_cases hr with h | h
      · rw [insertLength_words] at h
        exact Or.inl h
      · right
        rw [h]
        exact ⟨rfl, wordProd_length _ _⟩

theorem buildLayers_rows_shape (n : Nat) (s : Store) :
    (∀ r ∈ (buildLayers n s).lengths, r ∈ s.lengths ∨
      (r.2.1 = n ∧ r.1.length = min n alphaLen)) ∧
    (∀ r ∈ (buildLayers n s).words, r ∈ s.words ∨
      (r.2.1 = n ∧ r.1.length = min n alphaLen)) := by
  have hw : ∀ (L : Nat) (check : List (List Nat)) (w : List Nat) (s : Store),
      (∀ r ∈ (processWord n L check w s).lengths, r ∈ s.lengths ∨
        (r.2.1 = n ∧ r.1.length = min n alphaLen)) ∧
      (∀ r ∈ (processWord n L check w s).words, r ∈ s.words ∨
        (r.2.1 = n ∧ r.1.length = min n alphaLen)) := by
    intro L check w s
    exact foldl_rows_shape _ _ _ (fun s i => buildInsert_rows_shape n L check w s i) _ s
  have he : ∀ (L : Nat) (check : List (List Nat)) (old : List Nat) (s : Store),
      (∀ r ∈ (processElem n L check old s).lengths, r ∈ s.lengths ∨
        (r.2.1 = n ∧ r.1.length = min n alphaLen)) ∧
      (∀ r ∈ (processElem n L check old s).words, r ∈ s.words ∨
        (r.2.1 = n ∧ r.1.length = min n alphaLen)) := by
    intro L check old s
    exact foldl_rows_shape _ _ _ (fun s w => hw L check w s) _ s
  have hl : ∀ (L : Nat) (s : Store),
      (∀ r ∈ (processLayer n L s).lengths, r ∈ s.lengths ∨
        (r.2.1 = n ∧ r.1.length = min n alphaLen)) ∧
      (∀ r ∈ (processLayer n L s).words, r ∈ s.words ∨
        (r.2.1 = n ∧ r.1.length = min n alphaLen)) := by
    intro L s
    unfold processLayer
    exact foldl_rows_shape _ _
      (fun s2 old => processElem n L (if L = 0 then [] else elemsAt s n (L-1)) old s2)
      (fun s2 old => he L (if L = 0 then [] else elemsAt s n (L-1)) old s2) _ s
  unfold buildLayers
  exact foldl_rows_shape _ _ (fun s2 L => processLayer n L s2) (fun s2 L => hl L s2) _ s

theorem create_ok_bounds {n : Nat} {s s' : Store} {b : Bool}
    (hok : create_element_cache n s = .ok (b, s')) : 1 ≤ n ∧ n ≤ 26 := by
  unfold create_element_cache at hok
  by_cases h1 : n < 1
  · rw [if_pos h1] at hok
    cases hok
  · rw [if_neg h1] at hok
    by_cases h2 : 26 < n
    · rw [if_pos h2] at hok
      cases hok
    · exact ⟨by omega, by omega⟩

theorem create_element_cache_storeInv {n : Nat} {s s' : Store} {b : Bool}
    (hinv : StoreInv s) (hok : create_element_cache n s = .ok (b, s')) :
    StoreInv s' := by
  rcases create_ok_bounds hok with ⟨hn1, hn26⟩
  have hmin : min n alphaLen = n := by
    unfold alphaLen
    omega
  have hbaselen : (baseArrangement n).length = n := by
    unfold baseArrangement
    rw [List.length_range, hmin]
  unfold create_element_cache at hok
  rw [if_neg (by omega), if_neg (by omega)] at hok
  by_cases hc : (s.lengths.any (fun r => decide (r.1 = baseArrangement n))
      || s.words.any (fun r => decide (r.2.2 = ([] : List Nat) ∧ r.2.1 = n))) = true
  · rw [if_pos hc] at hok
    simp only [Except.ok.injEq, Prod.mk.injEq] at hok
    rw [← hok.2]
    exact hinv
  · rw [if_neg hc] at hok
    simp only [Except.ok.injEq, Prod.mk.injEq] at hok
    rw [← hok.2]
    have hseedL : ∀ r ∈ (insertWord (insertLength s (baseArrangement n) n 0)
        (baseArrangement n) n []).lengths, r ∈ s.lengths ∨ r = (baseArrangement n, n, 0) := by
      intro r hr
      rw [insertWord_lengths] at hr
      exact insertLength_mem_cases hr
    have hseedW : ∀ r ∈ (insertWord (insertLength s (baseArrangement n) n 0)
        (baseArrangement n) n []).words, r ∈ s.words ∨ r = (baseArrangement n, n, []) := by
      intro r hr
      rcases insertWord_mem_cases hr with h | h
      · rw [insertLength_words] at h
        exact Or.inl h
      · exact Or.inr h
    rcases buildLayers_rows_shape n (insertWord (insertLength s (baseArrangement n) n 0)
        (baseArrangement n) n []) with ⟨hshL, hshW⟩
    constructor
    · intro r hr
      rcases hshL r hr with h | ⟨h1, h2⟩
      · rcases hseedL r h with h' | h'
        · exact hinv.1 r h'
        · rw [h']
          exact hbaselen
      · omega
    · intro r hr
      rcases hshW r hr with h | ⟨h1, h2⟩
      · rcases hseedW r h with h' | h'
        · exact hinv.2 r h'
        · rw [h']
          exact hbaselen
      · omega

theorem lengthLookup_correct_n {s : Store} {e : List Nat} (hinv : StoreInv s) :
    lengthLookupByElement s e = lookupLen s e.length e := by
  unfold lengthLookupByElement lookupLen
  congr 1
  congr 1
  apply List.filter_congr
  intro r hr
  by_cases h : r.1 = e
  · have : r.2.1 = e.length := by
      rw [← h]
      exact (hinv.1 r hr).symm
    simp [h, this]
  · simp [h]

theorem except_bind_error {α β : Type} (e : PyErr) (f : α → Except PyErr β) :
    ((Except.error e : Except PyErr α) >>= f) = .error e := rfl

theorem demazure_ensureCache {word : List Int} {n : Nat} {s s' : Store} {res : DemRes}
    (hok : demazure_product word n s = .ok (s', res)) : ensureCache n s = .ok s' := by
  unfold demazure_product at hok
  cases hpre : ensureCache n s with
  | error e =>
    rw [hpre, except_bind_error] at hok
    cases hok
  | ok s2 =>
    rw [hpre, except_bind_ok] at hok
    cases word with
    | nil =>
      simp only [Except.ok.injEq, Prod.mk.injEq] at hok
      rw [hok.1]
    | cons x xs =>
      cases hsz : skipZeros (x :: xs) with
      | nil =>
        rw [hsz] at hok
        simp only [Except.ok.injEq, Prod.mk.injEq] at hok
        rw [hok.1]
      | cons g rest =>
        rw [hsz] at hok
        have hok2 : (rest.foldlM (fun pw i => demStep s2 n pw i) [g] >>=
            fun pw => Except.ok (s2, DemRes.word pw)) = Except.ok (s', res) := hok
        cases hfold : rest.foldlM (fun pw i => demStep s2 n pw i) [g] with
        | error e =>
          rw [hfold, except_bind_error] at hok2
          cases hok2
        | ok pw =>
          rw [hfold, except_bind_ok] at hok2
          simp only [Except.ok.injEq, Prod.mk.injEq] at hok2
          rw [hok2.1]

theorem demazure_product_storeInv {word : List Int} {n : Nat} {s s' : Store} {res : DemRes}
    (hinv : StoreInv s) (hok : demazure_product word n s = .ok (s', res)) :
    StoreInv s' := by
  have hpre := demazure_ensureCache hok
  unfold ensureCache at hpre
  by_cases hb : cacheHasLenZero s n = true
  · rw [hb] at hpre
    simp only [if_true] at hpre
    have : s = s' := by
      injection hpre
    rw [← this]
    exact hinv
  · rw [Bool.not_eq_true] at hb
    rw [hb] at hpre
    rw [if_neg (by simp)] at hpre
    cases hcr : create_element_cache n s with
    | error e =>
      rw [hcr] at hpre
      cases hpre
    | ok p =>
      rw [hcr] at hpre
      have : p.2 = s' := by
        have hred : (do
            let r ← (Except.ok p : Except PyErr (Bool × Store))
            pure r.2 : Except PyErr Store) = Except.ok p.2 := rfl
        rw [hred] at hpre
        injection hpre
      rw [← this]
      exact create_element_cache_storeInv hinv (by rw [hcr])

/-! The claims. -/

/-- C1: for a word of generators valid for `n` (with `n ≤ 26`) containing at
least one non-identity generator, `demazure_product` returns a word that
evaluates to the Demazure (0-Hecke) product of the whole input — the fold that
appends a generator exactly when the candidate's Coxeter length strictly
increases — and whose length is that element's Coxeter length, hence minimal
among all words evaluating to that element. -/
theorem C1_demazure_product_minimal {word : List Int} {n : Nat}
    (hn1 : 1 ≤ n) (hn26 : n ≤ 26)
    (hgens : ∀ g ∈ word, 0 ≤ g ∧ g < (n : Int))
    (hnz : ∃ g ∈ word, g ≠ 0) :
    ∃ s' pw, demazure_product word n emptyStore = .ok (s', DemRes.word pw) ∧
      wordProdI pw n = heckeFold word n ∧
      pw.length = invCount (heckeFold word n) ∧
      ∀ w' : List Nat, wordProd w' n = heckeFold word n → pw.length ≤ w'.length := by
  rcases demazure_product_spec goodStore_empty hn1 hn26 hgens hnz with
    ⟨s', pw, hok, _, _, _, _, _, hprod, hlen⟩
  refine ⟨s', pw, hok, hprod, hlen, ?_⟩
  intro w' hw'
  rw [hlen, ← hw']
  exact invCount_wordProd_le w' n

/-- Witness for C1 at `word = [1]`, `n = 2`. -/
theorem C1_demazure_product_minimal_witness :
    (∀ g ∈ ([1] : List Int), 0 ≤ g ∧ g < (2 : Int)) ∧
    (∃ s' pw, demazure_product [1] 2 emptyStore = .ok (s', DemRes.word pw) ∧
      wordProdI pw 2 = heckeFold [1] 2 ∧
      pw.length = invCount (heckeFold [1] 2) ∧
      ∀ w' : List Nat, wordProd w' 2 = heckeFold [1] 2 → pw.length ≤ w'.length) :=
  ⟨by decide, C1_demazure_product_minimal (by decide) (by decide) (by decide) (by decide)⟩

/-- C1 counterexample: on the all-zero word `[0]`, whose generators are valid
for `n = 1`, the engine returns the word `[0]` of length 1, while the empty
word also evaluates to the same Demazure product and is strictly shorter, so
the returned word is not minimal. -/
theorem C1_demazure_product_minimal_counterexample :
    demazure_product [0] 1 emptyStore = .ok (freshStore 1, DemRes.word [0]) ∧
    wordProd [] 1 = heckeFold [0] 1 ∧
    ¬ (([0] : List Int).length ≤ ([] : List Nat).length) :=
  ⟨rfl, rfl, by decide⟩

/-- C2: after a fresh cache build for `n`, the length table has exactly one
row per element, every element of `S_n` has at least one stored witness word,
each stored word row is a minimal witness — it evaluates to its element and
its length is the element's Coxeter length — and the `(word, n)` primary key
is duplicate-free, so no row is ever overwritten; an element may, however,
carry several distinct witness words. -/
theorem C2_cache_unique_entries {n : Nat} {s' : Store} (hn1 : 1 ≤ n) (hn26 : n ≤ 26)
    (hok : create_element_cache n emptyStore = .ok (true, s')) :
    (s'.lengths.map (fun r => r.1)).Nodup ∧
    (s'.words.map (fun r => (r.2.1, r.2.2))).Nodup ∧
    (∀ e : List Nat, e.Perm (List.range n) → ∃ w, (e, n, w) ∈ s'.words) ∧
    (∀ r ∈ s'.words, wordProd r.2.2 n = r.1 ∧ r.2.2.length = invCount r.1) := by
  have hbs := fresh_build_state hn1 hn26 hok
  refine ⟨hbs.len_nodup, hbs.word_nodup, ?_, ?_⟩
  · intro e he
    have hrow : (e, n, invCount e) ∈ s'.lengths := buildState_complete_all hbs he
    have hamb : (e, n, invCount e) ∉ emptyStore.lengths :=
      fun h => absurd h (List.not_mem_nil _)
    rcases hbs.witness (e, n, invCount e) hrow hamb with ⟨w, hw⟩
    exact ⟨w, hw⟩
  · intro r hr
    rcases fresh_build_word_rows hn1 hn26 hok r hr with ⟨_, h2, h3, _⟩
    exact ⟨h2, h3⟩

/-- Witness for C2 at `n = 2`. -/
theorem C2_cache_unique_entries_witness :
    create_element_cache 2 emptyStore = .ok (true, freshStore 2) ∧
    (((freshStore 2).lengths.map (fun r => r.1)).Nodup ∧
     ((freshStore 2).words.map (fun r => (r.2.1, r.2.2))).Nodup ∧
     (∀ e : List Nat, e.Perm (List.range 2) → ∃ w, (e, 2, w) ∈ (freshStore 2).words) ∧
     (∀ r ∈ (freshStore 2).words,
        wordProd r.2.2 2 = r.1 ∧ r.2.2.length = invCount r.1)) :=
  ⟨rfl, C2_cache_unique_entries (by decide) (by decide) rfl⟩

/-- C2 counterexample: the fresh cache for `n = 3` stores two distinct witness
words, `[1,2,1]` and `[2,1,2]`, for the longest element `"cba"`, so the cache
does not hold exactly one word per element. -/
theorem C2_multiple_witness_words :
    ([2, 1, 0], 3, [1, 2, 1]) ∈ (freshStore 3).words ∧
    ([2, 1, 0], 3, [2, 1, 2]) ∈ (freshStore 3).words ∧
    ([1, 2, 1] : List Nat) ≠ [2, 1, 2] := by
  decide

/-- C3: a fresh cache build for `1 ≤ n ≤ 26` records exactly `n!` elements,
every recorded length is at most `n(n-1)/2`, and that maximum is attained by
exactly one row, whose element is the base arrangement reversed. -/
theorem C3_fresh_build_census {n : Nat} {s' : Store} (hn1 : 1 ≤ n) (hn26 : n ≤ 26)
    (hok : create_element_cache n emptyStore = .ok (true, s')) :
    s'.lengths.length = Nat.factorial n ∧
    (∀ r ∈ s'.lengths, r.2.2 ≤ n * (n - 1) / 2) ∧
    s'.lengths.filter (fun r => decide (r.2.2 = n * (n - 1) / 2)) =
      [((baseArrangement n).reverse, n, n * (n - 1) / 2)] := by
  refine ⟨fresh_build_count hn1 hn26 hok, ?_, ?_⟩
  · intro r hr
    rcases fresh_build_rows hn1 hn26 hok r hr with ⟨_, hperm, hinv⟩
    have hlen : r.1.length = n := perm_range_length hperm
    calc r.2.2 = invCount r.1 := hinv
      _ ≤ r.1.length * (r.1.length - 1) / 2 := invCount_le_tri r.1
      _ = n * (n - 1) / 2 := by rw [hlen]
  · rw [baseArrangement_eq hn26]
    exact fresh_build_max_filter hn1 hn26 hok

/-- Witness for C3 at `n = 2`. -/
theorem C3_fresh_build_census_witness :
    create_element_cache 2 emptyStore = .ok (true, freshStore 2) ∧
    ((freshStore 2).lengths.length = Nat.factorial 2 ∧
     (∀ r ∈ (freshStore 2).lengths, r.2.2 ≤ 2 * (2 - 1) / 2) ∧
     (freshStore 2).lengths.filter (fun r => decide (r.2.2 = 2 * (2 - 1) / 2)) =
       [((baseArrangement 2).reverse, 2, 2 * (2 - 1) / 2)]) :=
  ⟨rfl, C3_fresh_build_census (by decide) (by decide) rfl⟩

/-- C4: every witness word stored by a fresh cache build for `n` re-evaluates
under `standard_product` at ambient size `n` to its element's arrangement, and
its length equals the length recorded for that element. -/
theorem C4_witness_words_evaluate {n : Nat} {s' : Store} (hn1 : 1 ≤ n) (hn26 : n ≤ 26)
    (hok : create_element_cache n emptyStore = .ok (true, s')) :
    ∀ r ∈ s'.words, standard_product (r.2.2.map (fun k : Nat => (k : Int))) n = .ok r.1 ∧
      ∀ L, (r.1, n, L) ∈ s'.lengths → r.2.2.length = L := by
  intro r hr
  rcases fresh_build_word_rows hn1 hn26 hok r hr with ⟨_, hprod, hlen, hg⟩
  constructor
  · have hgi : ∀ g ∈ r.2.2.map (fun k : Nat => (k : Int)), 0 ≤ g ∧ g < (n : Int) ∧ g < 26 := by
      intro g hgm
      rcases List.mem_map.mp hgm with ⟨k, hk, hke⟩
      rcases hg k hk with ⟨_, hkn⟩
      have hk26 : k < 26 := lt_of_lt_of_le hkn hn26
      rw [← hke]
      refine ⟨Int.natCast_nonneg k, by exact_mod_cast hkn, by exact_mod_cast hk26⟩
    rw [standard_product_ok _ _ hgi]
    have hmm : (r.2.2.map (fun k : Nat => (k : Int))).map Int.toNat = r.2.2 := by
      rw [List.map_map]
      have hcomp : (Int.toNat ∘ fun k : Nat => (k : Int)) = id := by
        funext k
        simp
      rw [hcomp, List.map_id]
    unfold wordProdI
    rw [hmm, hprod]
  · intro L hL
    rcases fresh_build_rows hn1 hn26 hok (r.1, n, L) hL with ⟨_, _, hinvL⟩
    rw [hlen]
    exact hinvL.symm

/-- Witness for C4 at `n = 2`. -/
theorem C4_witness_words_evaluate_witness :
    create_element_cache 2 emptyStore = .ok (true, freshStore 2) ∧
    ∀ r ∈ (freshStore 2).words,
      standard_product (r.2.2.map (fun k : Nat => (k : Int))) 2 = .ok r.1 ∧
      ∀ L, (r.1, 2, L) ∈ (freshStore 2).lengths → r.2.2.length = L :=
  ⟨rfl, C4_witness_words_evaluate (by decide) (by decide) rfl⟩

/-- C5: on a non-empty word all of whose generators are `0`, `demazure_product`
returns the one-generator word `[0]` — not the empty word — and `[0]` does
evaluate to the identity arrangement. -/
theorem C5_allzero_word {word : List Int} {n : Nat} (hn1 : 1 ≤ n) (hn26 : n ≤ 26)
    (hz : ∀ g ∈ word, g = 0) (hne : word ≠ []) :
    ∃ s', demazure_product word n emptyStore = .ok (s', DemRes.word [0]) ∧
      wordProdI [0] n = baseArrangement n := by
  rcases demazure_product_allzero goodStore_empty hn1 hn26 hz hne with ⟨s', hok, _⟩
  exact ⟨s', hok, rfl⟩

/-- Witness for C5 at `word = [0, 0]`, `n = 1`. -/
theorem C5_allzero_word_witness :
    (([0, 0] : List Int) ≠ []) ∧
    (∃ s', demazure_product [0, 0] 1 emptyStore = .ok (s', DemRes.word [0]) ∧
      wordProdI [0] 1 = baseArrangement 1) :=
  ⟨by decide, C5_allzero_word (by decide) (by decide) (by decide) (by decide)⟩

/-- C5 counterexample: on the all-zero word `[0, 0]` with `n = 2` the engine
returns the word `[0]`, which is not the empty word. -/
theorem C5_allzero_counterexample :
    demazure_product [0, 0] 2 emptyStore = .ok (freshStore 2, DemRes.word [0]) ∧
    DemRes.word ([0] : List Int) ≠ DemRes.word ([] : List Int) :=
  ⟨rfl, by decide⟩

/-- C6: for a word of non-zero generators inside the 32-bit range, of length
below 64, and any mask below both `2 ^ d` and `2 ^ 53` — the masks the
`float64` promotion of the source's mixed `int64 // uint64` division converts
exactly — `subword` succeeds and the expression length (the count of non-zero
generators) of the subword equals the population count of the mask. -/
theorem C6_subword_expression_length {w : List Int} {i : Nat}
    (hgs : ∀ g ∈ w, g ≠ 0 ∧ -(2 ^ 31) < g ∧ g < 2 ^ 31)
    (hd : w.length < 64) (hi : i < 2 ^ w.length) (hi53 : i < 2 ^ 53) :
    ∃ sw, subword (w, i) = .ok sw ∧ calculate_expression_length sw = popcount i := by
  refine ⟨maskWord w i, ?_, expression_length_maskWord w i hgs hi hi53⟩
  unfold subword
  rw [if_neg (by simp only; omega)]

/-- Witness for C6 at `w = [1]`, `i = 1`. -/
theorem C6_subword_expression_length_witness :
    ((1 : Nat) < 2 ^ ([1] : List Int).length ∧ (1 : Nat) < 2 ^ 53) ∧
    (∃ sw, subword (([1] : List Int), 1) = .ok sw ∧
      calculate_expression_length sw = popcount 1) :=
  ⟨⟨by decide, by decide⟩,
   C6_subword_expression_length (by decide) (by decide) (by decide) (by decide)⟩

/-- C6 counterexample: two failures of the claimed popcount identity inside
its claimed domain.  For the word `[0]`, whose single generator is `0`, the
mask `1` keeps that position, yet the subword `[0]` has expression length 0
while the mask has population count 1.  And on a word of 54 non-zero
generators the mask `2 ^ 53 + 1` is rounded by the `float64` promotion to
`2 ^ 53`, so the subword keeps a single generator — expression length 1 —
while the mask has population count 2. -/
theorem C6_zero_generator_counterexample :
    (subword (([0] : List Int), 1) = .ok [0] ∧
      calculate_expression_length [0] = 0 ∧ popcount 1 = 1) ∧
    (float64Round (2 ^ 53 + 1) = 2 ^ 53 ∧
      calculate_expression_length (maskWord (List.replicate 54 1) (2 ^ 53 + 1)) = 1 ∧
      popcount (2 ^ 53 + 1) = 2) := by
  refine ⟨⟨rfl, rfl, ?_⟩, ⟨by decide, by decide, ?_⟩⟩
  · rw [popcount_eq]
    simp [popcount]
  · rw [popcount_eq]
    have h2 : (2 ^ 53 + 1) % 2 = 1 := by norm_num
    have h3 : (2 ^ 53 + 1) / 2 = 2 ^ 52 := by norm_num
    rw [h2, h3, popcount_two_pow]

/-- C7: for a word of at least one and fewer than 64 generators, all valid for
`n` (with `n ≤ 26`), `subword_element_association` succeeds with exactly `2^d`
rows, one per mask in mask order, and the mask-0 row pairs the all-zero
subword with the identity element. -/
theorem C7_subword_association_rows {word : List Int} {n : Nat}
    (hn26 : n ≤ 26) (hd1 : 1 ≤ word.length) (hd64 : word.length < 64)
    (hgens : ∀ g ∈ word, 0 ≤ g ∧ g < (n : Int)) :
    ∃ s' rows, subword_element_association word n emptyStore = .ok (s', rows) ∧
      rows.length = 2 ^ word.length ∧
      rows.map Prod.fst = (List.range (2 ^ word.length)).map (fun i => maskWord word i) ∧
      rows[0]? = some (maskWord word 0, baseArrangement n) :=
  subword_element_association_spec goodStore_empty hn26 hd1 hd64 hgens

/-- Witness for C7 at `word = [1]`, `n = 2`. -/
theorem C7_subword_association_rows_witness :
    (∀ g ∈ ([1] : List Int), 0 ≤ g ∧ g < (2 : Int)) ∧
    (∃ s' rows, subword_element_association [1] 2 emptyStore = .ok (s', rows) ∧
      rows.length = 2 ^ ([1] : List Int).length ∧
      rows.map Prod.fst =
        (List.range (2 ^ ([1] : List Int).length)).map (fun i => maskWord [1] i) ∧
      rows[0]? = some (maskWord [1] 0, baseArrangement 2)) :=
  ⟨by decide,
   C7_subword_association_rows (by decide) (by decide) (by decide) (by decide)⟩

/-- C7 counterexample: on the empty word, of length `0 < 64` with all (no)
generators valid, `subword_element_association` raises `TypeError` instead of
returning a one-row table. -/
theorem C7_empty_word_counterexample :
    subword_element_association [] 1 emptyStore = .error .typeError := rfl

/-- C8: a second call of `create_element_cache` for an `n` already built on a
fresh store returns the already-built flag `false` and the store unchanged, so
no row is written and every existing entry survives. -/
theorem C8_already_built_idempotent {n : Nat} {s' : Store}
    (hok : create_element_cache n emptyStore = .ok (true, s')) :
    create_element_cache n s' = .ok (false, s') := by
  rcases create_ok_bounds hok with ⟨hn1, hn26⟩
  have hnb : cacheHasLenZero emptyStore n = false := rfl
  rcases create_element_cache_good goodStore_empty hnb hn1 hn26 with
    ⟨s'', hok2, hg'', _, _, hbuilt, _⟩
  rw [hok] at hok2
  simp only [Except.ok.injEq, Prod.mk.injEq] at hok2
  have hss : s' = s'' := hok2.2
  rw [hss]
  exact create_element_cache_already_built hg'' hbuilt

/-- Witness for C8 at `n = 2`. -/
theorem C8_already_built_idempotent_witness :
    create_element_cache 2 emptyStore = .ok (true, freshStore 2) ∧
    create_element_cache 2 (freshStore 2) = .ok (false, freshStore 2) :=
  ⟨rfl, C8_already_built_idempotent rfl⟩

/-- C9: for `n ≤ 26` the Permutation Evaluator raises the range error
(`ValueError`) exactly when some generator of the word lies outside `[0, n)`,
returning no arrangement in that case, and on words of in-range generators it
returns an arrangement. -/
theorem C9_standard_product_range_error {word : List Int} {n : Nat} (hn : n ≤ 26) :
    (standard_product word n = .error .valueError ↔
      ∃ g ∈ word, g < 0 ∨ (n : Int) ≤ g) ∧
    ((∀ g ∈ word, 0 ≤ g ∧ g < (n : Int)) →
      ∃ el, standard_product word n = .ok el) := by
  have hbase : (baseArrangement n).length = n := by
    unfold baseArrangement alphaLen
    rw [List.length_range]
    omega
  constructor
  · constructor
    · intro herr
      by_contra hno
      push_neg at hno
      rcases foldlM_applyGenE_exists_ok n word.reverse (baseArrangement n) hbase
        (fun g hg => hno g (List.mem_reverse.mp hg)) with ⟨el, hok, _⟩
      unfold standard_product at herr
      rw [hok] at herr
      cases herr
    · rintro ⟨g, hg, hbad⟩
      unfold standard_product
      exact foldlM_applyGenE_error n word.reverse (baseArrangement n) hbase
        ⟨g, List.mem_reverse.mpr hg, hbad⟩
  · intro hall
    rcases foldlM_applyGenE_exists_ok n word.reverse (baseArrangement n) hbase
      (fun g hg => hall g (List.mem_reverse.mp hg)) with ⟨el, hok, _⟩
    refine ⟨el, ?_⟩
    unfold standard_product
    exact hok

/-- Witness for C9 at `word = [1]`, `n = 2`. -/
theorem C9_standard_product_range_error_witness :
    (standard_product [1] 2 = .error .valueError ↔
      ∃ g ∈ ([1] : List Int), g < 0 ∨ (2 : Int) ≤ g) ∧
    ((∀ g ∈ ([1] : List Int), 0 ≤ g ∧ g < (2 : Int)) →
      ∃ el, standard_product [1] 2 = .ok el) :=
  C9_standard_product_range_error (by decide)

/-- C9 counterexample: for `n = 27` the generator 26 lies inside `[0, n)`, yet
the evaluator raises `IndexError` — the arrangement has only 26 symbols — so
without a bound on `n` an in-range word can still raise. -/
theorem C9_large_n_counterexample :
    standard_product [26] 27 = .error .indexError ∧
    (0 : Int) ≤ 26 ∧ (26 : Int) < 27 :=
  ⟨rfl, by decide, by decide⟩

/-- C10: rows written by the cache builder relate an element to exactly as many
symbols as its `n_value`, the property is preserved by the Demazure engine,
so an element string determines its `n`, and the length query of
`process_element`, which filters by element alone, agrees with the `n`-aware
length lookup at the element's own size. -/
theorem C10_element_length_invariant {n : Nat} {s s' : Store} {b : Bool}
    (hinv : StoreInv s) (hok : create_element_cache n s = .ok (b, s')) :
    StoreInv s' ∧
    (∀ e : List Nat, lengthLookupByElement s' e = lookupLen s' e.length e) ∧
    ∀ (w : List Int) (m : Nat) (t : Store) (res : DemRes),
      demazure_product w m s' = .ok (t, res) →
      StoreInv t ∧
      ∀ e : List Nat, lengthLookupByElement t e = lookupLen t e.length e := by
  have h1 := create_element_cache_storeInv hinv hok
  refine ⟨h1, fun e => lengthLookup_correct_n h1, ?_⟩
  intro w m t res hdem
  have h2 := demazure_product_storeInv h1 hdem
  exact ⟨h2, fun e => lengthLookup_correct_n h2⟩

/-- Witness for C10 at `n = 1` on the fresh database. -/
theorem C10_element_length_invariant_witness :
    StoreInv emptyStore ∧
    create_element_cache 1 emptyStore = .ok (true, freshStore 1) ∧
    (StoreInv (freshStore 1) ∧
     (∀ e : List Nat, lengthLookupByElement (freshStore 1) e =
        lookupLen (freshStore 1) e.length e) ∧
     ∀ (w : List Int) (m : Nat) (t : Store) (res : DemRes),
       demazure_product w m (freshStore 1) = .ok (t, res) →
       StoreInv t ∧
       ∀ e : List Nat, lengthLookupByElement t e = lookupLen t e.length e) := by
  have hinv : StoreInv emptyStore := by
    unfold StoreInv
    exact ⟨fun r hr => absurd hr (List.not_mem_nil r),
           fun r hr => absurd hr (List.not_mem_nil r)⟩
  exact ⟨hinv, rfl, @C10_element_length_invariant 1 emptyStore (freshStore 1) true hinv rfl⟩
